import Mathlib

/-!
# Verification of `utils/list_helper.js`

A shallow embedding of the aggregation helpers `totalLikes`, `favoriteBlog`,
`mostBlogs` and `mostLikes`, together with the parts of the JavaScript runtime
and of lodash they rely on.

Modelling conventions:

* a blog record has text fields `title`, `author`, `url`, `id` and a `likes`
  field that is either an integer or absent (`undefined`);
* numbers are the integer-valued doubles, written as the integers they denote,
  extended with `NaN` and `-Infinity`; the operator `+` rounds the exact sum
  to the nearest double, ties to even (`roundDouble`), so that it is exact
  only while the sum has at most 53 significant bits. The exponent range is
  not bounded: a sum of magnitude `2^1024` or more, which a double turns into
  an infinity, is outside the fragment;
* a function that may raise an error returns `Except JsError _`;
  JavaScript `null` is `Option.none` inside the `Except`;
* arrays are lists. ECMAScript puts no bound on the number of arguments of a
  call; `favoriteBlog` and `mostLikes` follow it. An engine accepts only so
  many arguments in the spread call `Math.max(...array)` and raises a
  `RangeError` beyond; `favoriteBlogOn` and `mostLikesOn` are the same
  functions on an engine whose bound is given;
* the lodash functions (`_.map` with a property name, `_.uniq`, `_.countBy`,
  `_.entries`, `_.last`, `_.maxBy`) follow the lodash 4 sources; an object is
  the list of its own properties in creation order, and its enumeration order
  is computed by `ownPropertyOrder`.
-/

namespace ListHelper

/-! ## JavaScript values -/

/-- The values a `likes` expression can evaluate to. -/
inductive JsValue where
  | undefined
  | number (n : Int)
  | nan
  | negInfinity
  deriving DecidableEq, Repr

/-- Run-time errors of the embedded fragment. -/
inductive JsError where
  | typeError
  | rangeError
  deriving DecidableEq, Repr

deriving instance DecidableEq for Except

/-- A blog record as the helpers read it. -/
structure Post where
  title : String
  author : String
  url : String
  likes : JsValue
  id : String
  deriving DecidableEq, Repr

/-- The abstract operation `ToNumber`, on the values of the fragment. -/
def toNumber : JsValue → JsValue
  | .undefined => .nan
  | v => v

/-- The number of low-order bits of the natural number `m` that a double
cannot hold: the least `e` with `m < 2^(53 + e)`, found by halving `m` at most
`fuel` times. -/
def excessBits : Nat → Nat → Nat
  | 0, _ => 0
  | fuel + 1, m => if m < 2 ^ 53 then 0 else excessBits fuel (m / 2) + 1

/-- The multiple of `2^e` nearest to `m`; of two equally near multiples, the
one with an even quotient. -/
def roundGrid (e m : Nat) : Nat :=
  if 2 ^ e < 2 * (m % 2 ^ e) ∨ (2 * (m % 2 ^ e) = 2 ^ e ∧ (m / 2 ^ e) % 2 = 1) then
    (m / 2 ^ e + 1) * 2 ^ e
  else (m / 2 ^ e) * 2 ^ e

/-- The natural number with at most 53 significant bits nearest to `m`, ties to
even. -/
def roundNat (m : Nat) : Nat := roundGrid (excessBits m m) m

/-- The double nearest to the integer `n` (IEEE 754 round to nearest, ties to
even), as the integer it denotes. -/
def roundDouble (n : Int) : Int :=
  if 0 ≤ n then (roundNat n.toNat : Int) else -(roundNat (-n).toNat : Int)

/-- The operator `+` on two non-string operands: the sum of two numbers is the
double nearest to their exact sum. -/
def jsAdd (a b : JsValue) : JsValue :=
  match toNumber a, toNumber b with
  | .number x, .number y => .number (roundDouble (x + y))
  | .negInfinity, .number _ => .negInfinity
  | .number _, .negInfinity => .negInfinity
  | .negInfinity, .negInfinity => .negInfinity
  | _, _ => .nan

/-- The operator `===`. -/
def strictEq : JsValue → JsValue → Bool
  | .undefined, .undefined => true
  | .number x, .number y => decide (x = y)
  | .negInfinity, .negInfinity => true
  | _, _ => false

/-- One step of `Math.max`: the running maximum `highest` against the next
argument, which is coerced with `ToNumber`; `NaN` is absorbing. -/
def mathMaxStep (highest v : JsValue) : JsValue :=
  match highest, toNumber v with
  | .number x, .number y => .number (max x y)
  | .negInfinity, .number y => .number y
  | .number x, .negInfinity => .number x
  | .negInfinity, .negInfinity => .negInfinity
  | _, _ => .nan

/-- The function `Math.max` on the list of its arguments: starts from
`-Infinity`. Building that list from an array with the spread operator is
where an engine may refuse, see `mathMaxSpread`. -/
def mathMax (args : List JsValue) : JsValue :=
  args.foldl mathMaxStep .negInfinity

/-- The loop of `Array.prototype.indexOf`, from position `k`: the first index
whose element is `===` to `v`, or `-1`. -/
def indexOfFrom (v : JsValue) : List JsValue → Nat → Int
  | [], _ => -1
  | x :: xs, k => if strictEq x v then (k : Int) else indexOfFrom v xs (k + 1)

/-- The method `Array.prototype.indexOf`. -/
def indexOf (xs : List JsValue) (v : JsValue) : Int :=
  indexOfFrom v xs 0

/-- Element access `xs[i]` with a numeric index: `none` stands for `undefined`. -/
def jsIndex {α : Type} (xs : List α) (i : Int) : Option α :=
  if i < 0 then none else xs.get? i.toNat

/-- Element access on an array of numbers, as a JavaScript value. -/
def jsIndexValue (xs : List JsValue) (i : Int) : JsValue :=
  match jsIndex xs i with
  | some v => v
  | none => .undefined

/-! ## lodash -/

/-- The loop of lodash `baseUniq` with `result` as built so far: a value is
pushed unless `result` already includes it. -/
def uniqLoop : List String → List String → List String
  | [], result => result
  | x :: xs, result =>
    if x ∈ result then uniqLoop xs result else uniqLoop xs (result ++ [x])

/-- The function `_.uniq`. -/
def uniq (array : List String) : List String :=
  uniqLoop array []

/-- The setter of `_.countBy` on an object given as its properties in creation
order: an own key is incremented in place, a new key is appended with `1`. -/
def countBySet : List (String × Nat) → String → List (String × Nat)
  | [], key => [(key, 1)]
  | (k, n) :: rest, key =>
    if k = key then (k, n + 1) :: rest else (k, n) :: countBySet rest key

/-- The function `_.countBy` with the identity iteratee: the resulting object,
as its properties in creation order. -/
def countBy (collection : List String) : List (String × Nat) :=
  collection.foldl countBySet []

/-- The number denoted by a list of decimal digits. -/
def digitsValue (cs : List Char) : Nat :=
  cs.foldl (fun n c => 10 * n + (c.toNat - 48)) 0

/-- The array index a property key denotes, if any: the key is the canonical
decimal numeral (the string `ToString` gives back) of an integer between `0`
and `2^32 - 2`. -/
def arrayIndex? (key : String) : Option Nat :=
  let n := digitsValue key.data
  if key.data.all Char.isDigit && decide (n ≤ 4294967294) && decide (Nat.repr n = key) then
    some n
  else none

/-- The numeric rank of an array-index key (`0` for other keys, unused). -/
def indexRank (e : String × Nat) : Nat :=
  (arrayIndex? e.1).getD 0

/-- Own property enumeration order (`Object.keys`, hence lodash `keys`):
array-index keys in ascending numeric order, then the other keys in creation
order. The argument lists the properties in creation order. -/
def ownPropertyOrder (props : List (String × Nat)) : List (String × Nat) :=
  (props.filter (fun e => (arrayIndex? e.1).isSome)).insertionSort
      (fun a b => indexRank a ≤ indexRank b)
    ++ props.filter (fun e => !(arrayIndex? e.1).isSome)

/-- The function `_.entries` (`_.toPairs`) on an object. -/
def entries (object : List (String × Nat)) : List (String × Nat) :=
  ownPropertyOrder object

/-- The function `_.last` on a two-element entry. -/
def last (e : String × Nat) : Nat := e.2

/-- The loop of lodash `baseExtremum` with the comparator `baseGt`, on numeric
criteria: `computed` is the best criterion so far (`none` for `undefined`) and
`result` the element that gave it. A later element replaces the result only
when its criterion is strictly greater. -/
def baseExtremum (iteratee : String × Nat → Nat) :
    List (String × Nat) → Option Nat → Option (String × Nat) → Option (String × Nat)
  | [], _, result => result
  | value :: rest, computed, result =>
    let current := iteratee value
    match computed with
    | none => baseExtremum iteratee rest (some current) (some value)
    | some c =>
      if current > c then baseExtremum iteratee rest (some current) (some value)
      else baseExtremum iteratee rest computed result

/-- The function `_.maxBy`: `none` stands for `undefined`. -/
def maxBy (array : List (String × Nat)) (iteratee : String × Nat → Nat) :
    Option (String × Nat) :=
  baseExtremum iteratee array none none

/-! ## The helpers -/

/-- The values `dummy` can be called with: an absent argument is `undefined`,
a sequence of posts is an array. -/
inductive Argument where
  | undefined
  | null
  | boolean (b : Bool)
  | number (n : Int)
  | nan
  | string (s : String)
  | array (blogs : List Post)
  deriving DecidableEq, Repr

/-- The abstract operation `ToBoolean`: `undefined`, `null`, `false`, `0`,
`NaN` and the empty string are falsy, every object is truthy, so an array is
truthy whatever its length. -/
def toBoolean : Argument → Bool
  | .undefined => false
  | .null => false
  | .boolean b => b
  | .number n => decide (n ≠ 0)
  | .nan => false
  | .string s => decide (s ≠ "")
  | .array _ => true

/-- The function `dummy`: falling off the end of the body returns
`undefined`. -/
def dummy (blogs : Argument) : JsValue :=
  if toBoolean blogs then .number 1 else .undefined

/-- The callback `reducer` of `totalLikes` and `mostLikes`. -/
def reducer (sum : JsValue) (blog : Post) : JsValue :=
  jsAdd sum blog.likes

/-- The function `totalLikes`. -/
def totalLikes (blogs : List Post) : JsValue :=
  if blogs.length = 0 then .number 0 else blogs.foldl reducer (.number 0)

/-- The result record of `favoriteBlog`. -/
structure FavoriteResult where
  title : String
  author : String
  likes : JsValue
  deriving DecidableEq, Repr

/-- The constant `blog` of `favoriteBlog`: the first record whose likes are
`===` to the maximum of all likes; `none` stands for `undefined`. -/
def favoriteBlogFind (blogs : List Post) : Option Post :=
  blogs.find? (fun blog => strictEq blog.likes (mathMax (blogs.map (fun blog => blog.likes))))

/-- The function `favoriteBlog`: reading a field of an undefined `blog` raises
a `TypeError`. -/
def favoriteBlog (blogs : List Post) : Except JsError (Option FavoriteResult) :=
  let blog := favoriteBlogFind blogs
  if blogs.length > 0 then
    match blog with
    | some b => .ok (some { title := b.title, author := b.author, likes := b.likes })
    | none => .error .typeError
  else .ok none

/-- The result record of `mostBlogs`. -/
structure BlogsResult where
  author : String
  blogs : Nat
  deriving DecidableEq, Repr

/-- The constant `result` of `mostBlogs`: the maximal grouped entry. -/
def mostBlogsEntry (blogs : List Post) : Option (String × Nat) :=
  maxBy (entries (countBy (blogs.map (fun blog => blog.author)))) last

/-- The function `mostBlogs`: indexing an undefined `result` raises a
`TypeError`. -/
def mostBlogs (blogs : List Post) : Except JsError (Option BlogsResult) :=
  let result := mostBlogsEntry blogs
  if blogs.length > 0 then
    match result with
    | some r => .ok (some { author := r.1, blogs := r.2 })
    | none => .error .typeError
  else .ok none

/-- The result record of `mostLikes`; an `author` of `none` is `undefined`. -/
structure LikesResult where
  author : Option String
  likes : JsValue
  deriving DecidableEq, Repr

/-- The constant `author` of `mostLikes`: the distinct authors. -/
def mostLikesAuthor (blogs : List Post) : List String :=
  uniq (blogs.map (fun blog => blog.author))

/-- The constant `likes` of `mostLikes`: the total of each distinct author. -/
def mostLikesLikes (blogs : List Post) : List JsValue :=
  (mostLikesAuthor blogs).map (fun author =>
    let filter := blogs.filter (fun blog => decide (blog.author = author))
    filter.foldl reducer (.number 0))

/-- The constant `result` of `mostLikes`: the position of the maximum total. -/
def mostLikesIndex (blogs : List Post) : Int :=
  indexOf (mostLikesLikes blogs) (mathMax (mostLikesLikes blogs))

/-- The function `mostLikes`. -/
def mostLikes (blogs : List Post) : Except JsError (Option LikesResult) :=
  let author := mostLikesAuthor blogs
  let likes := mostLikesLikes blogs
  let result := mostLikesIndex blogs
  if blogs.length > 0 then
    .ok (some { author := jsIndex author result, likes := jsIndexValue likes result })
  else .ok none

/-! ## The spread calls on an engine with an argument limit -/

/-- The call `Math.max(...array)` on an engine that accepts at most `limit`
arguments in a spread call: a longer array raises a `RangeError`. -/
def mathMaxSpread (limit : Nat) (array : List JsValue) : Except JsError JsValue :=
  if array.length > limit then .error .rangeError else .ok (mathMax array)

/-- The function `favoriteBlog` on an engine that accepts at most `limit`
arguments in a spread call. The callback of `find` spreads the likes of all
posts; it runs at least once exactly when there is a post, and its first run
already fails when the posts are more than `limit`. -/
def favoriteBlogOn (limit : Nat) (blogs : List Post) :
    Except JsError (Option FavoriteResult) :=
  if blogs.length > 0 then
    match mathMaxSpread limit (blogs.map (fun blog => blog.likes)) with
    | .error e => .error e
    | .ok _ => favoriteBlog blogs
  else favoriteBlog blogs

/-- The function `mostLikes` on an engine that accepts at most `limit`
arguments in a spread call: the totals, one for each distinct author, are
spread before the length of the input is looked at. -/
def mostLikesOn (limit : Nat) (blogs : List Post) : Except JsError (Option LikesResult) :=
  match mathMaxSpread limit (mostLikesLikes blogs) with
  | .error e => .error e
  | .ok _ => mostLikes blogs

/-! ## Specification vocabulary -/

/-- The integer a `likes` field holds (`0` when it holds none). -/
def likesOf (p : Post) : Int :=
  match p.likes with
  | .number n => n
  | _ => 0

/-- Every post of the sequence has an integer `likes` field. -/
def IntegerLikes (blogs : List Post) : Prop :=
  ∀ p ∈ blogs, p.likes = .number (likesOf p)

instance (blogs : List Post) : Decidable (IntegerLikes blogs) := by
  unfold IntegerLikes; infer_instance

/-- The posts of the sequence written by `a`, in order. -/
def postsBy (blogs : List Post) (a : String) : List Post :=
  blogs.filter (fun p => decide (p.author = a))

/-- The sum of the likes of the posts of the sequence. -/
def likesSum (blogs : List Post) : Int :=
  (blogs.map likesOf).sum

/-- A post with the given author and likes, for examples. -/
def post (title author : String) (likes : Int) : Post :=
  { title := title, author := author, url := "", likes := .number likes, id := "" }

/-- The index of the first post of the sequence written by `a` (the length of
the sequence when there is none). -/
def firstIndex (blogs : List Post) (a : String) : Nat :=
  blogs.findIdx (fun p => decide (p.author = a))

/-- The enumeration order of the grouped entries of `mostBlogs`, on the keys `a`
and `b`: an array-index key comes before a key that is not one, two array-index
keys come in ascending numeric order, and two other keys in the order in which
their first posts appear in the sequence. -/
def keyBefore (blogs : List Post) (a b : String) : Prop :=
  match arrayIndex? a, arrayIndex? b with
  | some i, some j => i < j
  | some _, none => True
  | none, some _ => False
  | none, none => firstIndex blogs a < firstIndex blogs b

instance (blogs : List Post) (a b : String) : Decidable (keyBefore blogs a b) := by
  unfold keyBefore; split <;> infer_instance

/-- The number of posts of the sequence written by `a`. -/
def blogCount (blogs : List Post) (a : String) : Nat :=
  (postsBy blogs a).length


/-- The order of two entries in the enumeration, on their keys; the numeric
ranks of array-index keys are compared with `≤`. -/
def entryBefore (idx : String → Nat) (x y : String × Nat) : Prop :=
  match arrayIndex? x.1, arrayIndex? y.1 with
  | some i, some j => i ≤ j
  | some _, none => True
  | none, some _ => False
  | none, none => idx x.1 < idx y.1

/-- Well-formed input: every post has a `likes` field that holds a non-negative
integer, as a number (the integer is one a double denotes, as the value of
every numeric field is). -/
def WellFormed (blogs : List Post) : Prop :=
  ∀ p ∈ blogs, p.likes = .number (likesOf p) ∧ 0 ≤ likesOf p ∧
    roundDouble (likesOf p) = likesOf p

/-- The greatest safe integer, `2^53 - 1` (`Number.MAX_SAFE_INTEGER`). -/
def maxSafeInteger : Nat := 9007199254740991

/-- The likes of the sequence are integers whose absolute values sum to at
most `2^53 - 1`: every sum of some of them is a safe integer, so that no
addition rounds. -/
def SafeLikes (blogs : List Post) : Prop :=
  IntegerLikes blogs ∧ (blogs.map (fun p => (likesOf p).natAbs)).sum ≤ maxSafeInteger

instance (blogs : List Post) : Decidable (SafeLikes blogs) := by
  unfold SafeLikes; infer_instance

/-- The fold of the reducer of `totalLikes` and `mostLikes` on integers: the
sum in sequence order, rounded to a double after every addition. -/
def doubleSumFrom (start : Int) (likes : List Int) : Int :=
  likes.foldl (fun sum n => roundDouble (sum + n)) start

/-- The total `mostLikes` computes for the author `a`: the rounded sum, in
sequence order, of the likes of the posts by `a`. -/
def authorTotal (blogs : List Post) (a : String) : Int :=
  doubleSumFrom 0 ((postsBy blogs a).map likesOf)

instance (blogs : List Post) : Decidable (WellFormed blogs) := by
  unfold WellFormed; infer_instance


/-- The distinct authors of the sequence. -/
def authorsOf (blogs : List Post) : List String :=
  (blogs.map (fun p => p.author)).dedup

/-- The posts of the sequence that attain the maximum likes. -/
def topPosts (blogs : List Post) : List Post :=
  blogs.filter (fun p => decide (∀ q ∈ blogs, likesOf q ≤ likesOf p))

/-- The distinct authors that attain the maximum post count. -/
def topBloggers (blogs : List Post) : List String :=
  (authorsOf blogs).filter
    (fun a => decide (∀ c ∈ authorsOf blogs, blogCount blogs c ≤ blogCount blogs a))

/-- The distinct authors that attain the maximum total of likes. -/
def topLiked (blogs : List Post) : List String :=
  (authorsOf blogs).filter
    (fun a => decide (∀ c ∈ authorsOf blogs,
      likesSum (postsBy blogs c) ≤ likesSum (postsBy blogs a)))

/-- A post with the given author and no `likes` field, for examples. -/
def postNoLikes (title author : String) : Post :=
  { title := title, author := author, url := "", likes := .undefined, id := "" }


/-! ## Lemmas on rounding to a double -/

theorem excessBits_spec (fuel m : Nat) (h : m < 2 ^ (53 + fuel)) :
    m < 2 ^ (53 + excessBits fuel m) ∧
      (excessBits fuel m = 0 ∨ 2 ^ (52 + excessBits fuel m) ≤ m) := by
  induction fuel generalizing m with
  | zero => exact ⟨by simpa [excessBits] using h, Or.inl rfl⟩
  | succ fuel ih =>
    unfold excessBits
    by_cases hm : m < 2 ^ 53
    · rw [if_pos hm]; exact ⟨by simpa using hm, Or.inl rfl⟩
    · rw [if_neg hm]
      have hhalf : m / 2 < 2 ^ (53 + fuel) := by
        rw [Nat.div_lt_iff_lt_mul (by norm_num)]
        have : 2 ^ (53 + (fuel + 1)) = 2 ^ (53 + fuel) * 2 := by rw [← Nat.add_assoc, pow_succ]
        omega
      obtain ⟨h1, h2⟩ := ih (m / 2) hhalf
      have hp1 : 2 ^ (53 + (excessBits fuel (m / 2) + 1))
          = 2 ^ (53 + excessBits fuel (m / 2)) * 2 := by rw [← Nat.add_assoc, pow_succ]
      have hp2 : 2 ^ (52 + (excessBits fuel (m / 2) + 1))
          = 2 ^ (52 + excessBits fuel (m / 2)) * 2 := by rw [← Nat.add_assoc, pow_succ]
      refine ⟨?_, Or.inr ?_⟩
      · rw [hp1]; omega
      · rw [hp2]
        rcases h2 with h0 | h0
        · rw [h0]; norm_num; omega
        · omega

theorem excessBits_self (m : Nat) :
    m < 2 ^ (53 + excessBits m m) ∧ (excessBits m m = 0 ∨ 2 ^ (52 + excessBits m m) ≤ m) := by
  apply excessBits_spec
  calc m < 2 ^ m := Nat.lt_two_pow m
    _ ≤ 2 ^ (53 + m) := Nat.pow_le_pow_right (by norm_num) (by omega)

theorem excessBits_unique (m e : Nat) (h1 : m < 2 ^ (53 + e))
    (h2 : e = 0 ∨ 2 ^ (52 + e) ≤ m) : excessBits m m = e := by
  obtain ⟨s1, s2⟩ := excessBits_self m
  rcases Nat.lt_trichotomy (excessBits m m) e with h | h | h
  · exfalso
    rcases h2 with h0 | h0
    · omega
    · have : 2 ^ (53 + excessBits m m) ≤ 2 ^ (52 + e) :=
        Nat.pow_le_pow_right (by norm_num) (by omega)
      omega
  · exact h
  · exfalso
    rcases s2 with h0 | h0
    · omega
    · have : 2 ^ (53 + e) ≤ 2 ^ (52 + excessBits m m) :=
        Nat.pow_le_pow_right (by norm_num) (by omega)
      omega

theorem excessBits_mono (x y : Nat) (h : x ≤ y) : excessBits x x ≤ excessBits y y := by
  obtain ⟨_, x2⟩ := excessBits_self x
  obtain ⟨y1, _⟩ := excessBits_self y
  by_contra hc
  rcases x2 with h0 | h0
  · omega
  · have : 2 ^ (53 + excessBits y y) ≤ 2 ^ (52 + excessBits x x) :=
      Nat.pow_le_pow_right (by norm_num) (by omega)
    omega

theorem roundGrid_ge (e m k : Nat) (h : k * 2 ^ e ≤ m) : k * 2 ^ e ≤ roundGrid e m := by
  have hg : 0 < 2 ^ e := Nat.two_pow_pos _
  have hk : k ≤ m / 2 ^ e := (Nat.le_div_iff_mul_le hg).mpr h
  unfold roundGrid
  split
  · exact Nat.mul_le_mul_right _ (by omega)
  · exact Nat.mul_le_mul_right _ hk

theorem roundGrid_le (e m k : Nat) (h : m ≤ k * 2 ^ e) : roundGrid e m ≤ k * 2 ^ e := by
  have hg : 0 < 2 ^ e := Nat.two_pow_pos _
  have hdm : 2 ^ e * (m / 2 ^ e) + m % 2 ^ e = m := Nat.div_add_mod m (2 ^ e)
  unfold roundGrid
  split
  · next hc =>
    have hr : 0 < m % 2 ^ e := by omega
    have hlt : m / 2 ^ e < k := by
      by_contra hn
      have : k * 2 ^ e ≤ (m / 2 ^ e) * 2 ^ e := Nat.mul_le_mul_right _ (by omega)
      rw [Nat.mul_comm (m / 2 ^ e)] at this
      omega
    exact Nat.mul_le_mul_right _ hlt
  · have : (m / 2 ^ e) * 2 ^ e ≤ m := Nat.div_mul_le_self m (2 ^ e)
    omega

theorem roundGrid_multiple (e k : Nat) : roundGrid e (k * 2 ^ e) = k * 2 ^ e := by
  have hg : 0 < 2 ^ e := Nat.two_pow_pos _
  unfold roundGrid
  rw [Nat.mul_mod_left, Nat.mul_div_cancel k hg]
  rw [if_neg]
  omega

theorem roundGrid_eq (e m : Nat) :
    roundGrid e m = (m / 2 ^ e) * 2 ^ e ∨ roundGrid e m = (m / 2 ^ e + 1) * 2 ^ e := by
  unfold roundGrid
  split
  · exact Or.inr rfl
  · exact Or.inl rfl

theorem roundGrid_mono (e x y : Nat) (h : x ≤ y) : roundGrid e x ≤ roundGrid e y := by
  have hg : 0 < 2 ^ e := Nat.two_pow_pos _
  have hq : x / 2 ^ e ≤ y / 2 ^ e := Nat.div_le_div_right h
  have hx : 2 ^ e * (x / 2 ^ e) + x % 2 ^ e = x := Nat.div_add_mod x (2 ^ e)
  have hy : 2 ^ e * (y / 2 ^ e) + y % 2 ^ e = y := Nat.div_add_mod y (2 ^ e)
  have hxr : x % 2 ^ e < 2 ^ e := Nat.mod_lt _ hg
  rcases Nat.lt_or_ge (x / 2 ^ e) (y / 2 ^ e) with hlt | hge
  · have h1 : roundGrid e x ≤ (x / 2 ^ e + 1) * 2 ^ e := by
      apply roundGrid_le
      rw [Nat.add_mul, Nat.mul_comm (x / 2 ^ e)]
      omega
    have h2 : (y / 2 ^ e) * 2 ^ e ≤ roundGrid e y :=
      roundGrid_ge e y _ (Nat.div_mul_le_self y (2 ^ e))
    have h3 : (x / 2 ^ e + 1) * 2 ^ e ≤ (y / 2 ^ e) * 2 ^ e := Nat.mul_le_mul_right _ hlt
    omega
  · have heq : x / 2 ^ e = y / 2 ^ e := Nat.le_antisymm hq hge
    have hr : x % 2 ^ e ≤ y % 2 ^ e := by
      rw [heq] at hx
      omega
    unfold roundGrid
    rw [heq]
    by_cases hcx : 2 ^ e < 2 * (x % 2 ^ e) ∨ (2 * (x % 2 ^ e) = 2 ^ e ∧ (y / 2 ^ e) % 2 = 1)
    · have hcy : 2 ^ e < 2 * (y % 2 ^ e) ∨ (2 * (y % 2 ^ e) = 2 ^ e ∧ (y / 2 ^ e) % 2 = 1) := by
        rcases hcx with h1 | ⟨h1, h2⟩
        · left; omega
        · by_cases h3 : 2 * (y % 2 ^ e) = 2 ^ e
          · right; exact ⟨h3, h2⟩
          · left; omega
      rw [if_pos hcx, if_pos hcy]
    · rw [if_neg hcx]
      split
      · exact Nat.mul_le_mul_right _ (by omega)
      · exact le_refl _

theorem roundNat_mono (x y : Nat) (h : x ≤ y) : roundNat x ≤ roundNat y := by
  unfold roundNat
  have he := excessBits_mono x y h
  rcases Nat.lt_or_ge (excessBits x x) (excessBits y y) with hlt | hge
  · obtain ⟨x1, _⟩ := excessBits_self x
    obtain ⟨_, y2⟩ := excessBits_self y
    have hy2 : 2 ^ (52 + excessBits y y) ≤ y := by
      rcases y2 with h0 | h0
      · omega
      · exact h0
    have h1 : roundGrid (excessBits x x) x ≤ 2 ^ 53 * 2 ^ excessBits x x := by
      apply roundGrid_le
      rw [← pow_add]; omega
    have h2 : 2 ^ 52 * 2 ^ excessBits y y ≤ roundGrid (excessBits y y) y := by
      apply roundGrid_ge
      rw [← pow_add]; exact hy2
    have h3 : 2 ^ 53 * 2 ^ excessBits x x ≤ 2 ^ 52 * 2 ^ excessBits y y := by
      rw [← pow_add, ← pow_add]
      exact Nat.pow_le_pow_right (by norm_num) (by omega)
    omega
  · have heq : excessBits x x = excessBits y y := Nat.le_antisymm he hge
    rw [heq]
    exact roundGrid_mono _ x y h

theorem roundNat_small (m : Nat) (h : m < 2 ^ 53) : roundNat m = m := by
  unfold roundNat
  rw [excessBits_unique m 0 (by simpa using h) (Or.inl rfl)]
  have := roundGrid_multiple 0 m
  simpa using this

theorem roundNat_of_multiple (v e k : Nat) (he : excessBits v v = e) (hv : v = k * 2 ^ e) :
    roundNat v = v := by
  subst hv
  unfold roundNat
  rw [he]
  exact roundGrid_multiple e k

theorem roundNat_idem (m : Nat) : roundNat (roundNat m) = roundNat m := by
  obtain ⟨s1, s2⟩ := excessBits_self m
  rcases s2 with h0 | h0
  · have hm : m < 2 ^ 53 := by rw [h0] at s1; simpa using s1
    rw [roundNat_small m hm, roundNat_small m hm]
  · have hv1 : 2 ^ 52 * 2 ^ excessBits m m ≤ roundNat m := by
      apply roundGrid_ge
      rw [← pow_add]; exact h0
    have hv2 : roundNat m ≤ 2 ^ 53 * 2 ^ excessBits m m := by
      apply roundGrid_le
      rw [← pow_add]; omega
    have hmul : ∃ k, roundNat m = k * 2 ^ excessBits m m := by
      rcases roundGrid_eq (excessBits m m) m with h | h
      · exact ⟨_, h⟩
      · exact ⟨_, h⟩
    obtain ⟨k, hk⟩ := hmul
    rw [← pow_add] at hv1 hv2
    rcases Nat.lt_or_ge (roundNat m) (2 ^ (53 + excessBits m m)) with hlt | hge
    · have he : excessBits (roundNat m) (roundNat m) = excessBits m m :=
        excessBits_unique _ _ hlt (Or.inr hv1)
      exact roundNat_of_multiple _ _ k he hk
    · have hveq : roundNat m = 2 ^ (53 + excessBits m m) := Nat.le_antisymm hv2 hge
      have hp : 2 ^ (53 + (excessBits m m + 1)) = 2 ^ (53 + excessBits m m) * 2 := by
        rw [← Nat.add_assoc, pow_succ]
      have hp2 : 2 ^ (52 + (excessBits m m + 1)) = 2 ^ (53 + excessBits m m) := by
        congr 1; omega
      have hpos : 0 < 2 ^ (53 + excessBits m m) := Nat.two_pow_pos _
      have he : excessBits (roundNat m) (roundNat m) = excessBits m m + 1 := by
        apply excessBits_unique
        · rw [hp, hveq]; omega
        · right; rw [hp2, hveq]
      have hform : roundNat m = 2 ^ 52 * 2 ^ (excessBits m m + 1) := by
        rw [hveq, ← pow_add]; congr 1; omega
      exact roundNat_of_multiple _ _ _ he hform

theorem roundDouble_of_nonneg (n : Int) (h : 0 ≤ n) :
    roundDouble n = (roundNat n.toNat : Int) := by
  unfold roundDouble; rw [if_pos h]

theorem roundDouble_nonneg (n : Int) (h : 0 ≤ n) : 0 ≤ roundDouble n := by
  rw [roundDouble_of_nonneg n h]; exact Int.ofNat_nonneg _

theorem roundDouble_mono (x y : Int) (hx : 0 ≤ x) (h : x ≤ y) :
    roundDouble x ≤ roundDouble y := by
  rw [roundDouble_of_nonneg x hx, roundDouble_of_nonneg y (le_trans hx h)]
  exact Int.ofNat_le.mpr (roundNat_mono _ _ (Int.toNat_le_toNat h))

theorem roundDouble_idem (n : Int) (h : 0 ≤ n) : roundDouble (roundDouble n) = roundDouble n := by
  rw [roundDouble_of_nonneg n h, roundDouble_of_nonneg _ (Int.ofNat_nonneg _), Int.toNat_ofNat,
    roundNat_idem]

theorem roundDouble_safe (n : Int) (h : n.natAbs ≤ 9007199254740991) : roundDouble n = n := by
  unfold roundDouble
  split
  · next hn =>
    rw [roundNat_small _ (by omega)]
    exact Int.toNat_of_nonneg hn
  · next hn =>
    rw [roundNat_small _ (by omega)]
    omega

/-! ## Lemmas on the reducer -/

theorem foldl_reducer_double (l : List Post) (k : Int)
    (h : ∀ p ∈ l, p.likes = .number (likesOf p)) :
    l.foldl reducer (.number k) = .number (doubleSumFrom k (l.map likesOf)) := by
  induction l generalizing k with
  | nil => rfl
  | cons p ps ih =>
    have hp := h p (List.mem_cons_self _ _)
    have hps : ∀ q ∈ ps, q.likes = .number (likesOf q) :=
      fun q hq => h q (List.mem_cons_of_mem _ hq)
    have hstep : reducer (.number k) p = .number (roundDouble (k + likesOf p)) := by
      simp [reducer, hp, jsAdd, toNumber]
    rw [List.foldl_cons, hstep, ih _ hps]
    rfl

/-- No addition of the fold rounds while the absolute values of the start and
of the summands sum to a safe integer. -/
theorem doubleSumFrom_safe (xs : List Int) (k : Int)
    (h : k.natAbs + (xs.map Int.natAbs).sum ≤ maxSafeInteger) :
    doubleSumFrom k xs = k + xs.sum := by
  induction xs generalizing k with
  | nil => simp [doubleSumFrom]
  | cons x xs ih =>
    simp only [List.map_cons, List.sum_cons] at h
    have habs : (k + x).natAbs ≤ k.natAbs + x.natAbs := Int.natAbs_add_le k x
    have hround : roundDouble (k + x) = k + x :=
      roundDouble_safe _ (by unfold maxSafeInteger at h; omega)
    have hrest := ih (k + x) (by omega)
    simp only [doubleSumFrom, List.foldl_cons, List.sum_cons] at hrest ⊢
    rw [hround, hrest]
    omega

theorem natAbs_sum_postsBy_le (blogs : List Post) (a : String) :
    ((postsBy blogs a).map (fun p => (likesOf p).natAbs)).sum
      ≤ (blogs.map (fun p => (likesOf p).natAbs)).sum := by
  induction blogs with
  | nil => simp [postsBy]
  | cons p ps ih =>
    simp only [postsBy] at ih ⊢
    by_cases hpa : p.author = a
    · simp only [List.filter_cons, hpa, decide_True, if_true, List.map_cons, List.sum_cons]
      omega
    · simp only [List.filter_cons, hpa, decide_False, Bool.false_eq_true, if_false,
        List.map_cons, List.sum_cons]
      omega

theorem totalLikes_double (blogs : List Post) (h : IntegerLikes blogs) :
    totalLikes blogs = .number (doubleSumFrom 0 (blogs.map likesOf)) := by
  unfold totalLikes
  split
  · next h0 =>
    have : blogs = [] := List.length_eq_zero.mp h0
    subst this; rfl
  · exact foldl_reducer_double blogs 0 h

theorem doubleSumFrom_likes_safe (l : List Post)
    (h : (l.map (fun p => (likesOf p).natAbs)).sum ≤ maxSafeInteger) :
    doubleSumFrom 0 (l.map likesOf) = likesSum l := by
  rw [doubleSumFrom_safe _ 0 (by simpa [List.map_map, Function.comp_def] using h)]
  simp [likesSum]

theorem totalLikes_number (blogs : List Post) (h : SafeLikes blogs) :
    totalLikes blogs = .number (likesSum blogs) := by
  rw [totalLikes_double blogs h.1, doubleSumFrom_likes_safe blogs h.2]

theorem authorTotal_safe (blogs : List Post) (h : SafeLikes blogs) (a : String) :
    authorTotal blogs a = likesSum (postsBy blogs a) :=
  doubleSumFrom_likes_safe _ (le_trans (natAbs_sum_postsBy_le blogs a) h.2)

/-! ## Lemmas on `Math.max`, `===` and `indexOf` -/

theorem strictEq_number (x y : Int) : strictEq (.number x) (.number y) = decide (x = y) := rfl

theorem foldl_mathMaxStep_number (vs : List Int) (m : Int) :
    ∃ M, (vs.map JsValue.number).foldl mathMaxStep (.number m) = .number M ∧
      (M = m ∨ M ∈ vs) ∧ m ≤ M ∧ ∀ v ∈ vs, v ≤ M := by
  induction vs generalizing m with
  | nil => exact ⟨m, rfl, Or.inl rfl, le_refl _, by simp⟩
  | cons v vs ih =>
    obtain ⟨M, hM, hmem, hle, hall⟩ := ih (max m v)
    have hstep : mathMaxStep (.number m) (.number v) = .number (max m v) := rfl
    refine ⟨M, by simpa [hstep] using hM, ?_, le_trans (le_max_left _ _) hle, ?_⟩
    · rcases hmem with h | h
      · rcases max_choice m v with h2 | h2
        · left; rw [h, h2]
        · right; rw [h, h2]; exact List.mem_cons_self _ _
      · right; exact List.mem_cons_of_mem _ h
    · intro x hx
      rcases List.mem_cons.mp hx with h | h
      · rw [h]; exact le_trans (le_max_right _ _) hle
      · exact hall x h

theorem mathMax_number (vs : List Int) (hne : vs ≠ []) :
    ∃ M, mathMax (vs.map JsValue.number) = .number M ∧ M ∈ vs ∧ ∀ v ∈ vs, v ≤ M := by
  cases vs with
  | nil => exact absurd rfl hne
  | cons v vs =>
    obtain ⟨M, hM, hmem, hle, hall⟩ := foldl_mathMaxStep_number vs v
    have hstep : mathMaxStep .negInfinity (.number v) = .number v := rfl
    refine ⟨M, by simpa [mathMax, hstep] using hM, ?_, ?_⟩
    · rcases hmem with h | h
      · rw [h]; exact List.mem_cons_self _ _
      · exact List.mem_cons_of_mem _ h
    · intro x hx
      rcases List.mem_cons.mp hx with h | h
      · rw [h]; exact hle
      · exact hall x h

theorem map_likes_eq (blogs : List Post) (h : IntegerLikes blogs) :
    blogs.map (fun blog => blog.likes) = (blogs.map likesOf).map JsValue.number := by
  rw [List.map_map]
  exact List.map_congr_left (fun p hp => h p hp)

/-- The record `favoriteBlog` projects: it splits the sequence into the posts
before it, all with strictly fewer likes, and the rest, none with more. -/
theorem favoriteBlog_split (blogs : List Post) (hne : blogs ≠ []) (h : IntegerLikes blogs) :
    ∃ front b back, blogs = front ++ b :: back ∧
      favoriteBlog blogs = .ok (some { title := b.title, author := b.author, likes := b.likes }) ∧
      (∀ q ∈ blogs, likesOf q ≤ likesOf b) ∧ ∀ a ∈ front, likesOf a < likesOf b := by
  have hne2 : blogs.map likesOf ≠ [] := by simpa using hne
  obtain ⟨M, hM, hmem, hall⟩ := mathMax_number (blogs.map likesOf) hne2
  obtain ⟨p, hp, hpM⟩ := List.mem_map.mp hmem
  have hpred : ∀ q ∈ blogs,
      strictEq q.likes (mathMax (blogs.map (fun blog => blog.likes))) = decide (likesOf q = M) := by
    intro q hq
    rw [map_likes_eq blogs h, hM, h q hq, strictEq_number]
  have hsome : (favoriteBlogFind blogs).isSome := by
    unfold favoriteBlogFind
    rw [List.find?_isSome]
    exact ⟨p, hp, by rw [hpred p hp]; simpa using hpM⟩
  obtain ⟨b, hb⟩ := Option.isSome_iff_exists.mp hsome
  have hb2 := hb
  unfold favoriteBlogFind at hb2
  obtain ⟨hbp, front, back, hsplit, hfront⟩ := List.find?_eq_some.mp hb2
  have hbmem : b ∈ blogs := by rw [hsplit]; simp
  have hbM : likesOf b = M := by
    rw [hpred b hbmem] at hbp; simpa using hbp
  refine ⟨front, b, back, hsplit, ?_, ?_, ?_⟩
  · have hlen : blogs.length > 0 := List.length_pos.mpr hne
    simp only [favoriteBlog, hb, hlen, if_true]
  · intro q hq
    rw [hbM]; exact hall _ (List.mem_map_of_mem _ hq)
  · intro a ha
    have hamem : a ∈ blogs := by rw [hsplit]; simp [ha]
    have h1 := hfront a ha
    rw [hpred a hamem] at h1
    have hneq : likesOf a ≠ M := by simpa using h1
    have hle : likesOf a ≤ M := hall _ (List.mem_map_of_mem _ hamem)
    rw [hbM]; exact lt_of_le_of_ne hle hneq

/-! ## Lemmas on `_.uniq` -/

theorem uniqLoop_append_singleton (l : List String) (acc : List String) (x : String) :
    uniqLoop (l ++ [x]) acc =
      if x ∈ uniqLoop l acc then uniqLoop l acc else uniqLoop l acc ++ [x] := by
  induction l generalizing acc with
  | nil => simp [uniqLoop]
  | cons y ys ih =>
    simp only [List.cons_append, uniqLoop]
    split
    · exact ih acc
    · exact ih (acc ++ [y])

theorem uniq_append_singleton (l : List String) (x : String) :
    uniq (l ++ [x]) = if x ∈ uniq l then uniq l else uniq l ++ [x] :=
  uniqLoop_append_singleton l [] x

theorem mem_uniq (l : List String) : ∀ y, y ∈ uniq l ↔ y ∈ l := by
  induction l using List.reverseRecOn with
  | nil => simp [uniq, uniqLoop]
  | append_singleton l x ih =>
    intro y
    rw [uniq_append_singleton]
    split
    · next hx =>
      rw [ih, List.mem_append, List.mem_singleton]
      constructor
      · exact fun h => Or.inl h
      · rintro (h | h)
        · exact h
        · rw [h]; exact (ih x).mp hx
    · rw [List.mem_append, List.mem_append, ih]

theorem nodup_uniq (l : List String) : (uniq l).Nodup := by
  induction l using List.reverseRecOn with
  | nil => simp [uniq, uniqLoop]
  | append_singleton l x ih =>
    rw [uniq_append_singleton]
    split
    · exact ih
    · next hx =>
      rw [List.nodup_append]
      refine ⟨ih, List.nodup_singleton x, ?_⟩
      intro a ha hb
      rw [List.mem_singleton] at hb
      exact hx (hb ▸ ha)

theorem uniq_ne_nil (l : List String) (hne : l ≠ []) : uniq l ≠ [] := by
  obtain ⟨x, hx⟩ := List.exists_mem_of_ne_nil l hne
  exact List.ne_nil_of_mem ((mem_uniq l x).mpr hx)

/-- The distinct values come in the order of their first occurrence. -/
theorem pairwise_uniq (l : List String) :
    (uniq l).Pairwise
      (fun a b => l.findIdx (fun k => decide (k = a)) < l.findIdx (fun k => decide (k = b))) := by
  induction l using List.reverseRecOn with
  | nil => simp [uniq, uniqLoop]
  | append_singleton l x ih =>
    have hold : ∀ a, a ∈ l →
        (l ++ [x]).findIdx (fun k => decide (k = a)) = l.findIdx (fun k => decide (k = a)) := by
      intro a ha
      have hlt : l.findIdx (fun k => decide (k = a)) < l.length :=
        List.findIdx_lt_length_of_exists ⟨a, ha, by simp⟩
      rw [List.findIdx_append, if_pos hlt]
    have hmono : (uniq l).Pairwise (fun a b =>
        (l ++ [x]).findIdx (fun k => decide (k = a))
          < (l ++ [x]).findIdx (fun k => decide (k = b))) := by
      refine List.Pairwise.imp_of_mem ?_ ih
      intro a b ha hb hab
      rw [hold a ((mem_uniq l a).mp ha), hold b ((mem_uniq l b).mp hb)]
      exact hab
    rw [uniq_append_singleton]
    split
    · exact hmono
    · next hx =>
      have hxl : x ∉ l := fun h => hx ((mem_uniq l x).mpr h)
      rw [List.pairwise_append]
      refine ⟨hmono, List.pairwise_singleton _ _, ?_⟩
      intro a ha b hb
      rw [List.mem_singleton] at hb
      subst hb
      have hal : a ∈ l := (mem_uniq l a).mp ha
      rw [hold a hal]
      have hlt : l.findIdx (fun k => decide (k = a)) < l.length :=
        List.findIdx_lt_length_of_exists ⟨a, hal, by simp⟩
      have hnot : ¬ l.findIdx (fun k => decide (k = b)) < l.length := by
        intro hc
        rw [List.findIdx_lt_length] at hc
        obtain ⟨y, hy, hyb⟩ := hc
        have : y = b := by simpa using hyb
        exact hxl (this ▸ hy)
      rw [List.findIdx_append, if_neg hnot]
      omega

/-! ## Lemmas on `_.countBy` -/

theorem countBy_append_singleton (l : List String) (x : String) :
    countBy (l ++ [x]) = countBySet (countBy l) x := by
  simp [countBy, List.foldl_append]

theorem countBySet_map (ks : List String) (f : String → Nat) (x : String) (hnd : ks.Nodup) :
    countBySet (ks.map (fun k => (k, f k))) x =
      if x ∈ ks then ks.map (fun k => (k, if k = x then f k + 1 else f k))
      else ks.map (fun k => (k, f k)) ++ [(x, 1)] := by
  induction ks with
  | nil => simp [countBySet]
  | cons k ks ih =>
    have hk : k ∉ ks := (List.nodup_cons.mp hnd).1
    have hks : ks.Nodup := (List.nodup_cons.mp hnd).2
    simp only [List.map_cons, countBySet]
    by_cases hkx : k = x
    · subst hkx
      simp only [if_true, List.mem_cons, true_or]
      congr 1
      apply List.map_congr_left
      intro a ha
      have : a ≠ k := fun h => hk (h ▸ ha)
      simp [this]
    · rw [if_neg hkx, ih hks]
      have hxk : ¬ x = k := fun h => hkx h.symm
      by_cases hx : x ∈ ks
      · simp [hx, hkx]
      · simp [hx, hkx, hxk]

/-- The object `_.countBy` builds: one property per distinct value, created in
order of first occurrence, holding the number of occurrences. -/
theorem countBy_eq (l : List String) :
    countBy l = (uniq l).map (fun k => (k, l.count k)) := by
  induction l using List.reverseRecOn with
  | nil => simp [countBy, uniq, uniqLoop]
  | append_singleton l x ih =>
    rw [countBy_append_singleton, ih, countBySet_map _ _ _ (nodup_uniq l),
      uniq_append_singleton]
    by_cases hx : x ∈ uniq l
    · rw [if_pos hx, if_pos hx]
      apply List.map_congr_left
      intro a _
      by_cases hax : a = x
      · simp [hax]
      · have : ¬ x = a := fun h => hax h.symm
        simp [hax, List.count_singleton, this]
    · rw [if_neg hx, if_neg hx, List.map_append]
      have hxl : x ∉ l := fun h => hx ((mem_uniq l x).mpr h)
      congr 1
      · apply List.map_congr_left
        intro a ha
        have hax : ¬ x = a := fun h => hx (h ▸ ha)
        simp [List.count_singleton, hax]
      · simp [List.count_eq_zero_of_not_mem hxl]

/-! ## Lemmas on `_.entries` and `_.maxBy` -/

theorem entries_perm (props : List (String × Nat)) : (entries props).Perm props := by
  unfold entries ownPropertyOrder
  refine List.Perm.trans (List.Perm.append_right _ (List.perm_insertionSort _ _)) ?_
  exact List.filter_append_perm _ _

theorem mem_entries (props : List (String × Nat)) (e : String × Nat) :
    e ∈ entries props ↔ e ∈ props :=
  (entries_perm props).mem_iff

theorem pairwise_entries (idx : String → Nat) (props : List (String × Nat))
    (h : props.Pairwise (fun x y => idx x.1 < idx y.1)) :
    (entries props).Pairwise (entryBefore idx) := by
  haveI : IsTotal (String × Nat) (fun a b => indexRank a ≤ indexRank b) :=
    ⟨fun a b => Nat.le_total _ _⟩
  haveI : IsTrans (String × Nat) (fun a b => indexRank a ≤ indexRank b) :=
    ⟨fun a b c hab hbc => Nat.le_trans hab hbc⟩
  unfold entries ownPropertyOrder
  rw [List.pairwise_append]
  have hmemS : ∀ x, x ∈ (props.filter (fun e => (arrayIndex? e.1).isSome)).insertionSort
      (fun a b => indexRank a ≤ indexRank b) → (arrayIndex? x.1).isSome = true := by
    intro x hx
    have := ((List.perm_insertionSort _ _).mem_iff).mp hx
    simpa using (List.mem_filter.mp this).2
  have hmemR : ∀ x, x ∈ props.filter (fun e => !(arrayIndex? e.1).isSome) →
      arrayIndex? x.1 = none := by
    intro x hx
    simpa using (List.mem_filter.mp hx).2
  refine ⟨?_, ?_, ?_⟩
  · have hs := List.sorted_insertionSort (fun a b : String × Nat => indexRank a ≤ indexRank b)
      (props.filter (fun e => (arrayIndex? e.1).isSome))
    refine List.Pairwise.imp_of_mem ?_ hs
    intro a b ha hb hab
    obtain ⟨i, hi⟩ := Option.isSome_iff_exists.mp (hmemS a ha)
    obtain ⟨j, hj⟩ := Option.isSome_iff_exists.mp (hmemS b hb)
    simp only [indexRank, hi, hj, Option.getD_some] at hab
    simp only [entryBefore, hi, hj]
    exact hab
  · have hf := List.Pairwise.filter (fun e : String × Nat => !(arrayIndex? e.1).isSome) h
    refine List.Pairwise.imp_of_mem ?_ hf
    intro a b ha hb hab
    simp only [entryBefore, hmemR a ha, hmemR b hb]
    exact hab
  · intro a ha b hb
    obtain ⟨i, hi⟩ := Option.isSome_iff_exists.mp (hmemS a ha)
    simp only [entryBefore, hi, hmemR b hb]

theorem arrayIndex?_eq_some (key : String) (n : Nat) (h : arrayIndex? key = some n) :
    Nat.repr n = key := by
  unfold arrayIndex? at h
  simp only at h
  split at h
  · next hc =>
    simp only [Bool.and_eq_true, decide_eq_true_eq] at hc
    have hn : digitsValue key.data = n := by simpa using h
    rw [← hn]; exact hc.2
  · exact absurd h (by simp)

theorem baseExtremum_split (f : String × Nat → Nat) (l : List (String × Nat))
    (c : Nat) (r : String × Nat) (hc : f r = c) :
    ∃ front e back, r :: l = front ++ e :: back ∧
      baseExtremum f l (some c) (some r) = some e ∧
      (∀ a ∈ front, f a < f e) ∧ ∀ b ∈ back, f b ≤ f e := by
  induction l generalizing c r with
  | nil => exact ⟨[], r, [], rfl, rfl, by simp, by simp⟩
  | cons v rest ih =>
    simp only [baseExtremum]
    by_cases hv : f v > c
    · rw [if_pos hv]
      obtain ⟨front, e, back, hsplit, hres, hfront, hback⟩ := ih (f v) v rfl
      have hve : f v ≤ f e := by
        have hmem : v ∈ front ++ e :: back := by rw [← hsplit]; simp
        rcases List.mem_append.mp hmem with h | h
        · exact le_of_lt (hfront v h)
        · rcases List.mem_cons.mp h with h | h
          · rw [h]
          · exact hback v h
      refine ⟨r :: front, e, back, by rw [hsplit]; rfl, hres, ?_, hback⟩
      intro a ha
      rcases List.mem_cons.mp ha with h | h
      · rw [h, hc]; omega
      · exact hfront a h
    · rw [if_neg hv]
      obtain ⟨front, e, back, hsplit, hres, hfront, hback⟩ := ih c r hc
      cases front with
      | nil =>
        simp only [List.nil_append, List.cons.injEq] at hsplit
        obtain ⟨hre, hrest⟩ := hsplit
        refine ⟨[], e, v :: back, by simp [hre, hrest], hres, by simp, ?_⟩
        intro b hb
        rcases List.mem_cons.mp hb with h | h
        · rw [h, ← hre, hc]; omega
        · exact hback b h
      | cons r2 front2 =>
        simp only [List.cons_append, List.cons.injEq] at hsplit
        obtain ⟨hr, hrest⟩ := hsplit
        refine ⟨r :: v :: front2, e, back, by simp [hrest], hres, ?_, hback⟩
        intro a ha
        have hr_lt : f r < f e := hfront r (by rw [hr]; simp)
        rcases List.mem_cons.mp ha with h | h
        · rw [h]; exact hr_lt
        · rcases List.mem_cons.mp h with h | h
          · rw [h]; omega
          · exact hfront a (List.mem_cons_of_mem _ h)

/-- The element `_.maxBy` returns on a non-empty array: the first one whose
criterion is maximal. -/
theorem maxBy_split (f : String × Nat → Nat) (l : List (String × Nat)) (hne : l ≠ []) :
    ∃ front e back, l = front ++ e :: back ∧ maxBy l f = some e ∧
      (∀ a ∈ front, f a < f e) ∧ ∀ b ∈ back, f b ≤ f e := by
  cases l with
  | nil => exact absurd rfl hne
  | cons v rest => exact baseExtremum_split f rest (f v) v rfl

/-! ## Lemmas on grouping by author -/

theorem count_author (blogs : List Post) (a : String) :
    (blogs.map (fun blog => blog.author)).count a = blogCount blogs a := by
  induction blogs with
  | nil => rfl
  | cons p ps ih =>
    simp only [blogCount, postsBy] at ih ⊢
    by_cases h : p.author = a
    · simp [List.filter_cons, h, ih]
    · simp [List.filter_cons, h, ih, List.count_cons]

theorem findIdx_author (blogs : List Post) (a : String) :
    (blogs.map (fun blog => blog.author)).findIdx (fun k => decide (k = a))
      = firstIndex blogs a := by
  induction blogs with
  | nil => rfl
  | cons p ps ih =>
    simp only [firstIndex] at ih ⊢
    simp only [List.map_cons, List.findIdx_cons, ih]

theorem mem_authors (blogs : List Post) (a : String) :
    a ∈ uniq (blogs.map (fun blog => blog.author)) ↔ ∃ p ∈ blogs, p.author = a := by
  rw [mem_uniq, List.mem_map]

/-- The grouped entry `mostBlogs` selects: it splits the enumeration of the
grouped entries into the entries before it, all with strictly smaller counts,
and the rest, none with a greater count. -/
theorem mostBlogs_split (blogs : List Post) (hne : blogs ≠ []) :
    ∃ front e back,
      entries ((uniq (blogs.map (fun blog => blog.author))).map
        (fun k => (k, blogCount blogs k))) = front ++ e :: back ∧
      mostBlogsEntry blogs = some e ∧
      mostBlogs blogs = .ok (some { author := e.1, blogs := e.2 }) ∧
      (∀ a ∈ front, a.2 < e.2) ∧ ∀ b ∈ back, b.2 ≤ e.2 := by
  have hcb : countBy (blogs.map (fun blog => blog.author))
      = (uniq (blogs.map (fun blog => blog.author))).map (fun k => (k, blogCount blogs k)) := by
    rw [countBy_eq]
    exact List.map_congr_left (fun k _ => by rw [count_author])
  have hne1 : uniq (blogs.map (fun blog => blog.author)) ≠ [] :=
    uniq_ne_nil _ (by simpa using hne)
  have hne2 : entries ((uniq (blogs.map (fun blog => blog.author))).map
      (fun k => (k, blogCount blogs k))) ≠ [] := by
    intro h0
    have hp := entries_perm ((uniq (blogs.map (fun blog => blog.author))).map
      (fun k => (k, blogCount blogs k)))
    rw [h0] at hp
    have := hp.length_eq
    simp at this
    exact hne1 (List.length_eq_zero.mp this.symm)
  obtain ⟨front, e, back, hsplit, hres, hfront, hback⟩ := maxBy_split last _ hne2
  have hentry : mostBlogsEntry blogs = some e := by
    unfold mostBlogsEntry; rw [hcb]; exact hres
  refine ⟨front, e, back, hsplit, hentry, ?_, hfront, hback⟩
  have hlen : blogs.length > 0 := List.length_pos.mpr hne
  simp only [mostBlogs, hentry, hlen, if_true]

theorem blogCount_eq_zero (blogs : List Post) (b : String)
    (h : ¬ ∃ p ∈ blogs, p.author = b) : blogCount blogs b = 0 := by
  simp only [blogCount, postsBy, List.length_eq_zero, List.filter_eq_nil_iff]
  intro p hp hpb
  exact h ⟨p, hp, by simpa using hpb⟩

/-- The selected grouped entry of `mostBlogs` belongs to an author of the
sequence and carries that author's post count; every author of the sequence
has an entry in the enumeration. -/
theorem mostBlogs_entries (blogs : List Post) (e : String × Nat) :
    e ∈ entries ((uniq (blogs.map (fun blog => blog.author))).map
        (fun k => (k, blogCount blogs k)))
      ↔ (∃ p ∈ blogs, p.author = e.1) ∧ e.2 = blogCount blogs e.1 := by
  rw [mem_entries, List.mem_map]
  constructor
  · rintro ⟨k, hk, rfl⟩
    exact ⟨(mem_authors blogs k).mp hk, rfl⟩
  · rintro ⟨hp, hc⟩
    refine ⟨e.1, (mem_authors blogs e.1).mpr hp, ?_⟩
    rw [← hc]

theorem pairwise_mostBlogs_entries (blogs : List Post) :
    (entries ((uniq (blogs.map (fun blog => blog.author))).map
        (fun k => (k, blogCount blogs k)))).Pairwise (entryBefore (firstIndex blogs)) := by
  apply pairwise_entries
  rw [List.pairwise_map]
  refine List.Pairwise.imp ?_ (pairwise_uniq (blogs.map (fun blog => blog.author)))
  intro a b hab
  rw [findIdx_author, findIdx_author] at hab
  exact hab

theorem keyBefore_of_entryBefore (blogs : List Post) (x y : String × Nat) (hne : x.1 ≠ y.1)
    (h : entryBefore (firstIndex blogs) x y) : keyBefore blogs x.1 y.1 := by
  unfold entryBefore at h
  unfold keyBefore
  split
  · next i j hi hj =>
    simp only [hi, hj] at h
    have hij : i ≠ j := by
      intro hij
      apply hne
      rw [← arrayIndex?_eq_some _ _ hi, ← arrayIndex?_eq_some _ _ hj, hij]
    omega
  · trivial
  · next j hi hj => simp only [hi, hj] at h
  · next hi hj => simpa only [hi, hj] using h

/-! ## Lemmas on `mostLikes` -/

theorem indexOfFrom_map (f : String → Int) (l : List String) (M : Int) (k : Nat)
    (h : ∃ a ∈ l, f a = M) :
    ∃ front a back, l = front ++ a :: back ∧ f a = M ∧ (∀ x ∈ front, f x ≠ M) ∧
      indexOfFrom (.number M) (l.map (fun x => JsValue.number (f x))) k
        = ((k + front.length : Nat) : Int) := by
  induction l generalizing k with
  | nil => obtain ⟨a, ha, _⟩ := h; exact absurd ha (List.not_mem_nil a)
  | cons y ys ih =>
    by_cases hy : f y = M
    · refine ⟨[], y, ys, rfl, hy, by simp, ?_⟩
      simp [indexOfFrom, strictEq_number, hy]
    · have h2 : ∃ a ∈ ys, f a = M := by
        obtain ⟨a, ha, haM⟩ := h
        rcases List.mem_cons.mp ha with h1 | h1
        · exact absurd (h1 ▸ haM) hy
        · exact ⟨a, h1, haM⟩
      obtain ⟨front, a, back, hsplit, haM, hfront, hidx⟩ := ih (k + 1) h2
      refine ⟨y :: front, a, back, by rw [hsplit]; rfl, haM, ?_, ?_⟩
      · intro x hx
        rcases List.mem_cons.mp hx with h1 | h1
        · rw [h1]; exact hy
        · exact hfront x h1
      · simp only [List.map_cons, indexOfFrom, strictEq_number, hy, decide_False,
          Bool.false_eq_true, if_false, hidx, List.length_cons]
        congr 1
        omega

theorem mostLikesLikes_eq (blogs : List Post) (h : IntegerLikes blogs) :
    mostLikesLikes blogs
      = (mostLikesAuthor blogs).map (fun a => JsValue.number (authorTotal blogs a)) := by
  unfold mostLikesLikes
  apply List.map_congr_left
  intro a _
  have hsub : ∀ p ∈ postsBy blogs a, p.likes = .number (likesOf p) :=
    fun p hp => h p (List.mem_filter.mp hp).1
  exact foldl_reducer_double (postsBy blogs a) 0 hsub

theorem jsIndex_length {α : Type} (front : List α) (a : α) (back : List α) :
    jsIndex (front ++ a :: back) (front.length : Int) = some a := by
  unfold jsIndex
  rw [if_neg (by omega)]
  simp only [Int.toNat_ofNat, List.get?_eq_getElem?]
  rw [List.getElem?_append_right (le_refl _)]
  simp

/-- The author `mostLikes` selects: it splits the distinct authors, in order of
first appearance, into the authors before it, all with strictly smaller totals,
and the rest, none with a greater total. -/
theorem mostLikes_split (blogs : List Post) (hne : blogs ≠ []) (h : IntegerLikes blogs) :
    ∃ front a back, mostLikesAuthor blogs = front ++ a :: back ∧
      mostLikesIndex blogs = (front.length : Int) ∧
      mostLikes blogs
        = .ok (some { author := some a, likes := .number (authorTotal blogs a) }) ∧
      (∀ b ∈ mostLikesAuthor blogs, authorTotal blogs b ≤ authorTotal blogs a) ∧
      ∀ x ∈ front, authorTotal blogs x < authorTotal blogs a := by
  have hne1 : mostLikesAuthor blogs ≠ [] := uniq_ne_nil _ (by simpa using hne)
  have hne2 : (mostLikesAuthor blogs).map (fun a => authorTotal blogs a) ≠ [] := by
    simpa using hne1
  obtain ⟨M, hM, hmem, hall⟩ := mathMax_number _ hne2
  rw [List.map_map] at hM
  obtain ⟨a0, ha0, ha0M⟩ := List.mem_map.mp hmem
  obtain ⟨front, a, back, hsplit, haM, hfront, hidx⟩ :=
    indexOfFrom_map (fun a => authorTotal blogs a) (mostLikesAuthor blogs) M 0
      ⟨a0, ha0, ha0M⟩
  have hindex : mostLikesIndex blogs = (front.length : Int) := by
    unfold mostLikesIndex indexOf
    rw [mostLikesLikes_eq blogs h]
    have hM2 : mathMax ((mostLikesAuthor blogs).map
        (fun a => JsValue.number (authorTotal blogs a))) = .number M := hM
    rw [hM2, hidx]
    simp
  have hle : ∀ b ∈ mostLikesAuthor blogs,
      authorTotal blogs b ≤ authorTotal blogs a := by
    intro b hb
    have hbM : authorTotal blogs b ≤ M :=
      hall _ (List.mem_map.mpr ⟨b, hb, rfl⟩)
    have haM2 : authorTotal blogs a = M := haM
    rw [haM2]; exact hbM
  refine ⟨front, a, back, hsplit, hindex, ?_, hle, ?_⟩
  · have hlen : blogs.length > 0 := List.length_pos.mpr hne
    simp only [mostLikes, hlen, if_true, hindex, jsIndexValue, mostLikesLikes_eq blogs h]
    rw [hsplit, List.map_append, List.map_cons, jsIndex_length]
    have := jsIndex_length (front.map (fun a => JsValue.number (authorTotal blogs a)))
      (JsValue.number (authorTotal blogs a))
      (back.map (fun a => JsValue.number (authorTotal blogs a)))
    rw [List.length_map] at this
    rw [this]
  · intro x hx
    have hxmem : x ∈ mostLikesAuthor blogs := by rw [hsplit]; simp [hx]
    have haM2 : authorTotal blogs a = M := haM
    have := hfront x hx
    exact lt_of_le_of_ne (hle x hxmem) (by rw [haM2]; exact this)

/-! ## Lemmas on a missing `likes` field -/

theorem jsAdd_nan_left (v : JsValue) : jsAdd .nan v = .nan := by
  cases v <;> rfl

theorem jsAdd_undefined_right (v : JsValue) : jsAdd v .undefined = .nan := by
  cases v <;> rfl

theorem foldl_reducer_nan (l : List Post) : l.foldl reducer .nan = .nan := by
  induction l with
  | nil => rfl
  | cons p ps ih =>
    rw [List.foldl_cons]
    have : reducer .nan p = .nan := jsAdd_nan_left p.likes
    rw [this, ih]

theorem foldl_reducer_undefined (l : List Post) (acc : JsValue)
    (h : ∃ p ∈ l, p.likes = .undefined) : l.foldl reducer acc = .nan := by
  induction l generalizing acc with
  | nil => obtain ⟨p, hp, _⟩ := h; exact absurd hp (List.not_mem_nil p)
  | cons q qs ih =>
    rw [List.foldl_cons]
    by_cases hq : q.likes = .undefined
    · have : reducer acc q = .nan := by
        unfold reducer; rw [hq]; exact jsAdd_undefined_right acc
      rw [this, foldl_reducer_nan]
    · apply ih
      obtain ⟨p, hp, hpu⟩ := h
      rcases List.mem_cons.mp hp with h1 | h1
      · exact absurd (h1 ▸ hpu) hq
      · exact ⟨p, h1, hpu⟩

theorem totalLikes_undefined (blogs : List Post) (h : ∃ p ∈ blogs, p.likes = .undefined) :
    totalLikes blogs = .nan := by
  unfold totalLikes
  split
  · next h0 =>
    obtain ⟨p, hp, _⟩ := h
    rw [List.length_eq_zero.mp h0] at hp
    exact absurd hp (List.not_mem_nil p)
  · exact foldl_reducer_undefined blogs _ h

theorem mathMaxStep_nan_left (v : JsValue) : mathMaxStep .nan v = .nan := by
  cases v <;> rfl

theorem mathMaxStep_nan_right (v : JsValue) : mathMaxStep v .nan = .nan := by
  cases v <;> rfl

theorem mathMaxStep_undefined_right (v : JsValue) : mathMaxStep v .undefined = .nan := by
  cases v <;> rfl

theorem foldl_mathMaxStep_nan (l : List JsValue) : l.foldl mathMaxStep .nan = .nan := by
  induction l with
  | nil => rfl
  | cons v vs ih => rw [List.foldl_cons, mathMaxStep_nan_left, ih]

/-- The maximum is `NaN` as soon as one argument is `undefined` or `NaN`. -/
theorem foldl_mathMaxStep_eq_nan (l : List JsValue) (acc : JsValue)
    (h : .undefined ∈ l ∨ .nan ∈ l) : l.foldl mathMaxStep acc = .nan := by
  induction l generalizing acc with
  | nil => rcases h with h | h <;> exact absurd h (List.not_mem_nil _)
  | cons v vs ih =>
    rw [List.foldl_cons]
    by_cases hv : v = .undefined ∨ v = .nan
    · have : mathMaxStep acc v = .nan := by
        rcases hv with hv | hv
        · rw [hv]; exact mathMaxStep_undefined_right acc
        · rw [hv]; exact mathMaxStep_nan_right acc
      rw [this, foldl_mathMaxStep_nan]
    · apply ih
      rcases h with h | h
      · rcases List.mem_cons.mp h with h1 | h1
        · exact absurd (Or.inl h1.symm) hv
        · exact Or.inl h1
      · rcases List.mem_cons.mp h with h1 | h1
        · exact absurd (Or.inr h1.symm) hv
        · exact Or.inr h1

theorem strictEq_nan (v : JsValue) : strictEq v .nan = false := by
  cases v <;> rfl

theorem indexOfFrom_nan (l : List JsValue) (k : Nat) : indexOfFrom .nan l k = -1 := by
  induction l generalizing k with
  | nil => rfl
  | cons v vs ih => simp only [indexOfFrom, strictEq_nan, Bool.false_eq_true, if_false, ih]

theorem favoriteBlog_undefined (blogs : List Post) (h : ∃ p ∈ blogs, p.likes = .undefined) :
    favoriteBlog blogs = .error .typeError := by
  obtain ⟨p, hp, hpu⟩ := h
  have hmax : mathMax (blogs.map (fun blog => blog.likes)) = .nan := by
    apply foldl_mathMaxStep_eq_nan
    left
    exact List.mem_map.mpr ⟨p, hp, hpu⟩
  have hfind : favoriteBlogFind blogs = none := by
    unfold favoriteBlogFind
    rw [hmax, List.find?_eq_none]
    intro x _
    simp [strictEq_nan]
  have hlen : blogs.length > 0 := List.length_pos_of_mem hp
  simp only [favoriteBlog, hfind, hlen, if_true]

theorem mostLikes_undefined (blogs : List Post) (h : ∃ p ∈ blogs, p.likes = .undefined) :
    mostLikes blogs = .ok (some { author := none, likes := .undefined }) := by
  obtain ⟨p, hp, hpu⟩ := h
  have hmem : JsValue.nan ∈ mostLikesLikes blogs := by
    unfold mostLikesLikes
    refine List.mem_map.mpr ⟨p.author, (mem_authors blogs p.author).mpr ⟨p, hp, rfl⟩, ?_⟩
    apply foldl_reducer_undefined
    exact ⟨p, List.mem_filter.mpr ⟨hp, by simp⟩, hpu⟩
  have hmax : mathMax (mostLikesLikes blogs) = .nan :=
    foldl_mathMaxStep_eq_nan _ _ (Or.inr hmem)
  have hidx : mostLikesIndex blogs = -1 := by
    unfold mostLikesIndex indexOf
    rw [hmax, indexOfFrom_nan]
  have hlen : blogs.length > 0 := List.length_pos_of_mem hp
  simp [mostLikes, hidx, hlen, jsIndex, jsIndexValue]

/-! ## Results of the three selections -/

theorem favoriteBlog_result (blogs : List Post) (hne : blogs ≠ []) (h : IntegerLikes blogs) :
    ∃ b ∈ blogs,
      favoriteBlog blogs = .ok (some { title := b.title, author := b.author, likes := b.likes }) ∧
      ∀ q ∈ blogs, likesOf q ≤ likesOf b := by
  obtain ⟨front, b, back, hsplit, hfav, hmax, _⟩ := favoriteBlog_split blogs hne h
  exact ⟨b, by rw [hsplit]; simp, hfav, hmax⟩

theorem mostBlogs_result (blogs : List Post) (hne : blogs ≠ []) :
    ∃ a, mostBlogs blogs = .ok (some { author := a, blogs := blogCount blogs a }) ∧
      (∃ p ∈ blogs, p.author = a) ∧ ∀ b, blogCount blogs b ≤ blogCount blogs a := by
  obtain ⟨front, e, back, hsplit, _, hres, hfront, hback⟩ := mostBlogs_split blogs hne
  have he := (mostBlogs_entries blogs e).mp (by rw [hsplit]; simp)
  refine ⟨e.1, by rw [← he.2]; exact hres, he.1, ?_⟩
  intro b
  rw [← he.2]
  by_cases hb : ∃ p ∈ blogs, p.author = b
  · have hmem := (mostBlogs_entries blogs (b, blogCount blogs b)).mpr ⟨hb, rfl⟩
    rw [hsplit] at hmem
    rcases List.mem_append.mp hmem with h | h
    · exact le_of_lt (hfront _ h)
    · rcases List.mem_cons.mp h with h | h
      · rw [← h]
      · exact hback _ h
  · rw [blogCount_eq_zero blogs b hb]; exact Nat.zero_le _

theorem mostLikes_result (blogs : List Post) (hne : blogs ≠ []) (h : IntegerLikes blogs) :
    ∃ a, mostLikes blogs
        = .ok (some { author := some a, likes := .number (authorTotal blogs a) }) ∧
      (∃ p ∈ blogs, p.author = a) ∧
      ∀ b, (∃ p ∈ blogs, p.author = b) →
        authorTotal blogs b ≤ authorTotal blogs a := by
  obtain ⟨front, a, back, hsplit, _, hres, hmax, _⟩ := mostLikes_split blogs hne h
  have ha : a ∈ mostLikesAuthor blogs := by rw [hsplit]; simp
  exact ⟨a, hres, (mem_authors blogs a).mp ha,
    fun b hb => hmax b ((mem_authors blogs b).mpr hb)⟩

theorem mostLikes_result_safe (blogs : List Post) (hne : blogs ≠ []) (h : SafeLikes blogs) :
    ∃ a, mostLikes blogs
        = .ok (some { author := some a, likes := .number (likesSum (postsBy blogs a)) }) ∧
      (∃ p ∈ blogs, p.author = a) ∧
      ∀ b, (∃ p ∈ blogs, p.author = b) →
        likesSum (postsBy blogs b) ≤ likesSum (postsBy blogs a) := by
  obtain ⟨a, hres, hocc, hmax⟩ := mostLikes_result blogs hne h.1
  refine ⟨a, by rw [← authorTotal_safe blogs h a]; exact hres, hocc, ?_⟩
  intro b hb
  rw [← authorTotal_safe blogs h a, ← authorTotal_safe blogs h b]
  exact hmax b hb

theorem postsBy_eq_self (blogs : List Post) (a : String) (hall : ∀ p ∈ blogs, p.author = a) :
    postsBy blogs a = blogs := by
  unfold postsBy
  rw [List.filter_eq_self]
  intro p hp
  simpa using hall p hp

theorem blogCount_pos (blogs : List Post) (a : String) (h : ∃ p ∈ blogs, p.author = a) :
    0 < blogCount blogs a := by
  obtain ⟨p, hp, hpa⟩ := h
  apply List.length_pos_of_mem (a := p)
  exact List.mem_filter.mpr ⟨hp, by simpa using hpa⟩

theorem blogCount_le_length (blogs : List Post) (a : String) :
    blogCount blogs a ≤ blogs.length :=
  List.length_filter_le _ _

theorem blogCount_eq_length (blogs : List Post) (a : String) :
    blogCount blogs a = blogs.length ↔ ∀ p ∈ blogs, p.author = a := by
  unfold blogCount postsBy
  rw [List.filter_length_eq_length]
  simp

/-! ## Lemmas on non-negative likes -/

theorem roundDouble_zero : roundDouble 0 = 0 := by decide

/-- A fold over non-negative summands never decreases, and its value is a
double when its start is one. -/
theorem doubleSumFrom_ge_start (xs : List Int) (k : Int) (hk : 0 ≤ k)
    (hkr : roundDouble k = k) (hnn : ∀ x ∈ xs, 0 ≤ x) :
    k ≤ doubleSumFrom k xs ∧ roundDouble (doubleSumFrom k xs) = doubleSumFrom k xs := by
  induction xs generalizing k with
  | nil => exact ⟨le_refl _, hkr⟩
  | cons x xs ih =>
    have hx : 0 ≤ x := hnn x (List.mem_cons_self _ _)
    have hstep : k ≤ roundDouble (k + x) := by
      have := roundDouble_mono k (k + x) hk (by omega)
      rw [hkr] at this
      exact this
    obtain ⟨h1, h2⟩ := ih (roundDouble (k + x)) (le_trans hk hstep)
      (roundDouble_idem _ (by omega)) (fun y hy => hnn y (List.mem_cons_of_mem _ hy))
    exact ⟨le_trans hstep h1, h2⟩

theorem le_doubleSumFrom_of_mem (xs : List Int) (k : Int) (hk : 0 ≤ k)
    (hkr : roundDouble k = k) (hnn : ∀ x ∈ xs, 0 ≤ x) (hrep : ∀ x ∈ xs, roundDouble x = x)
    (x : Int) (hx : x ∈ xs) : x ≤ doubleSumFrom k xs := by
  induction xs generalizing k with
  | nil => exact absurd hx (List.not_mem_nil x)
  | cons y ys ih =>
    have hy : 0 ≤ y := hnn y (List.mem_cons_self _ _)
    have hk2 : 0 ≤ roundDouble (k + y) := roundDouble_nonneg _ (by omega)
    have hkr2 : roundDouble (roundDouble (k + y)) = roundDouble (k + y) :=
      roundDouble_idem _ (by omega)
    have hnn2 : ∀ z ∈ ys, 0 ≤ z := fun z hz => hnn z (List.mem_cons_of_mem _ hz)
    rcases List.mem_cons.mp hx with h | h
    · have h1 : y ≤ roundDouble (k + y) := by
        have := roundDouble_mono y (k + y) hy (by omega)
        rw [hrep y (List.mem_cons_self _ _)] at this
        exact this
      have h2 := (doubleSumFrom_ge_start ys _ hk2 hkr2 hnn2).1
      rw [h]
      exact le_trans h1 h2
    · exact ih _ hk2 hkr2 hnn2 (fun z hz => hrep z (List.mem_cons_of_mem _ hz)) h

/-- The fold over the posts of one author is at most the fold over all posts,
when no likes are negative. -/
theorem doubleSumFrom_postsBy_le (blogs : List Post) (a : String) (k k2 : Int) (hk : 0 ≤ k)
    (hkk : k ≤ k2) (hkr : roundDouble k2 = k2) (hnn : ∀ p ∈ blogs, 0 ≤ likesOf p) :
    doubleSumFrom k ((postsBy blogs a).map likesOf) ≤ doubleSumFrom k2 (blogs.map likesOf) := by
  induction blogs generalizing k k2 with
  | nil => simpa [postsBy, doubleSumFrom] using hkk
  | cons p ps ih =>
    have hp : 0 ≤ likesOf p := hnn p (List.mem_cons_self _ _)
    have hnn2 : ∀ q ∈ ps, 0 ≤ likesOf q := fun q hq => hnn q (List.mem_cons_of_mem _ hq)
    have hidem : roundDouble (roundDouble (k2 + likesOf p)) = roundDouble (k2 + likesOf p) :=
      roundDouble_idem _ (by omega)
    by_cases hpa : p.author = a
    · have hf : postsBy (p :: ps) a = p :: postsBy ps a := by simp [postsBy, hpa]
      rw [hf]
      simp only [List.map_cons, doubleSumFrom, List.foldl_cons]
      exact ih _ _ (roundDouble_nonneg _ (by omega))
        (roundDouble_mono _ _ (by omega) (by omega)) hidem hnn2
    · have hf : postsBy (p :: ps) a = postsBy ps a := by simp [postsBy, hpa]
      rw [hf]
      simp only [List.map_cons, doubleSumFrom, List.foldl_cons]
      have hstep : k2 ≤ roundDouble (k2 + likesOf p) := by
        have := roundDouble_mono k2 (k2 + likesOf p) (by omega) (by omega)
        rw [hkr] at this
        exact this
      exact ih _ _ hk (le_trans hkk hstep) hidem hnn2

theorem likesOf_le_authorTotal (blogs : List Post) (h : WellFormed blogs)
    (b : Post) (hb : b ∈ blogs) : likesOf b ≤ authorTotal blogs b.author := by
  have hmem : b ∈ postsBy blogs b.author := List.mem_filter.mpr ⟨hb, by simp⟩
  apply le_doubleSumFrom_of_mem _ 0 (le_refl _) roundDouble_zero
  · intro x hx
    obtain ⟨p, hp, rfl⟩ := List.mem_map.mp hx
    exact (h p (List.mem_filter.mp hp).1).2.1
  · intro x hx
    obtain ⟨p, hp, rfl⟩ := List.mem_map.mp hx
    exact (h p (List.mem_filter.mp hp).1).2.2
  · exact List.mem_map_of_mem _ hmem

theorem authorTotal_le_total (blogs : List Post) (h : WellFormed blogs) (a : String) :
    authorTotal blogs a ≤ doubleSumFrom 0 (blogs.map likesOf) :=
  doubleSumFrom_postsBy_le blogs a 0 0 (le_refl _) (le_refl _) roundDouble_zero
    (fun p hp => (h p hp).2.1)

/-! ## Lemmas on permuted sequences -/

theorem blogCount_perm (xs ys : List Post) (hperm : xs.Perm ys) (a : String) :
    blogCount xs a = blogCount ys a :=
  (hperm.filter _).length_eq

theorem likesSum_postsBy_perm (xs ys : List Post) (hperm : xs.Perm ys) (a : String) :
    likesSum (postsBy xs a) = likesSum (postsBy ys a) :=
  ((hperm.filter _).map likesOf).sum_eq

theorem mem_authorsOf (blogs : List Post) (a : String) :
    a ∈ authorsOf blogs ↔ ∃ p ∈ blogs, p.author = a := by
  unfold authorsOf
  rw [List.mem_dedup, List.mem_map]

theorem eq_of_filter_length_one {α : Type} (l : List α) (P : α → Bool)
    (hl : (l.filter P).length = 1) (a b : α) (ha : a ∈ l.filter P) (hb : b ∈ l.filter P) :
    a = b := by
  obtain ⟨c, hc⟩ := List.length_eq_one.mp hl
  rw [hc, List.mem_singleton] at ha hb
  rw [ha, hb]

theorem perm_ne_nil (xs ys : List Post) (hperm : xs.Perm ys) (hne : xs ≠ []) : ys ≠ [] := by
  obtain ⟨x, hx⟩ := List.exists_mem_of_ne_nil xs hne
  exact List.ne_nil_of_mem (hperm.mem_iff.mp hx)

theorem favoriteBlog_perm (xs ys : List Post) (hperm : xs.Perm ys) (hne : xs ≠ [])
    (h : IntegerLikes xs) :
    (∃ fx fy, favoriteBlog xs = .ok (some fx) ∧ favoriteBlog ys = .ok (some fy) ∧
      fx.likes = fy.likes) ∧
    ((topPosts xs).length = 1 → favoriteBlog xs = favoriteBlog ys) := by
  have hy : IntegerLikes ys := fun p hp => h p (hperm.mem_iff.mpr hp)
  obtain ⟨bx, hbx, hfx, hmaxx⟩ := favoriteBlog_result xs hne h
  obtain ⟨b2, hb2, hfy, hmaxy⟩ := favoriteBlog_result ys (perm_ne_nil xs ys hperm hne) hy
  have hb2x : b2 ∈ xs := hperm.mem_iff.mpr hb2
  have hlikes : likesOf bx = likesOf b2 :=
    le_antisymm (hmaxy bx (hperm.mem_iff.mp hbx)) (hmaxx b2 hb2x)
  constructor
  · refine ⟨_, _, hfx, hfy, ?_⟩
    show bx.likes = b2.likes
    rw [h bx hbx, h b2 hb2x, hlikes]
  · intro hone
    have h1 : bx ∈ topPosts xs :=
      List.mem_filter.mpr ⟨hbx, decide_eq_true hmaxx⟩
    have h2 : b2 ∈ topPosts xs :=
      List.mem_filter.mpr ⟨hb2x, decide_eq_true (fun q hq => hmaxy q (hperm.mem_iff.mp hq))⟩
    have heq : bx = b2 := eq_of_filter_length_one _ _ hone bx b2 h1 h2
    rw [hfx, hfy, heq]

theorem mostBlogs_perm (xs ys : List Post) (hperm : xs.Perm ys) (hne : xs ≠ []) :
    (∃ rx ry, mostBlogs xs = .ok (some rx) ∧ mostBlogs ys = .ok (some ry) ∧
      rx.blogs = ry.blogs) ∧
    ((topBloggers xs).length = 1 → mostBlogs xs = mostBlogs ys) := by
  obtain ⟨ax, hrx, hoccx, hmaxx⟩ := mostBlogs_result xs hne
  obtain ⟨a2, hry, hoccy, hmaxy⟩ := mostBlogs_result ys (perm_ne_nil xs ys hperm hne)
  have hcount : blogCount xs ax = blogCount ys a2 := by
    apply le_antisymm
    · rw [blogCount_perm xs ys hperm ax]; exact hmaxy ax
    · rw [← blogCount_perm xs ys hperm a2]; exact hmaxx a2
  constructor
  · exact ⟨_, _, hrx, hry, hcount⟩
  · intro hone
    have hocc2 : ∃ p ∈ xs, p.author = a2 := by
      obtain ⟨p, hp, hpa⟩ := hoccy
      exact ⟨p, hperm.mem_iff.mpr hp, hpa⟩
    have h1 : ax ∈ topBloggers xs :=
      List.mem_filter.mpr ⟨(mem_authorsOf xs ax).mpr hoccx, decide_eq_true (fun c _ => hmaxx c)⟩
    have h2 : a2 ∈ topBloggers xs :=
      List.mem_filter.mpr ⟨(mem_authorsOf xs a2).mpr hocc2,
        decide_eq_true (fun c _ => by
          rw [blogCount_perm xs ys hperm c, blogCount_perm xs ys hperm a2]
          exact hmaxy c)⟩
    have heq : ax = a2 := eq_of_filter_length_one _ _ hone ax a2 h1 h2
    rw [hrx, hry, hcount, heq]

theorem safeLikes_perm (xs ys : List Post) (hperm : xs.Perm ys) (h : SafeLikes xs) :
    SafeLikes ys := by
  refine ⟨fun p hp => h.1 p (hperm.mem_iff.mpr hp), ?_⟩
  rw [← (hperm.map (fun p => (likesOf p).natAbs)).sum_eq]
  exact h.2

theorem mostLikes_perm (xs ys : List Post) (hperm : xs.Perm ys) (hne : xs ≠ [])
    (h : SafeLikes xs) :
    (∃ rx ry, mostLikes xs = .ok (some rx) ∧ mostLikes ys = .ok (some ry) ∧
      rx.likes = ry.likes) ∧
    ((topLiked xs).length = 1 → mostLikes xs = mostLikes ys) := by
  have hy : SafeLikes ys := safeLikes_perm xs ys hperm h
  obtain ⟨ax, hrx, hoccx, hmaxx⟩ := mostLikes_result_safe xs hne h
  obtain ⟨a2, hry, hoccy, hmaxy⟩ := mostLikes_result_safe ys (perm_ne_nil xs ys hperm hne) hy
  have hocc2 : ∃ p ∈ xs, p.author = a2 := by
    obtain ⟨p, hp, hpa⟩ := hoccy
    exact ⟨p, hperm.mem_iff.mpr hp, hpa⟩
  have hoccxy : ∃ p ∈ ys, p.author = ax := by
    obtain ⟨p, hp, hpa⟩ := hoccx
    exact ⟨p, hperm.mem_iff.mp hp, hpa⟩
  have hsum : likesSum (postsBy xs ax) = likesSum (postsBy ys a2) := by
    apply le_antisymm
    · rw [likesSum_postsBy_perm xs ys hperm ax]; exact hmaxy ax hoccxy
    · rw [← likesSum_postsBy_perm xs ys hperm a2]; exact hmaxx a2 hocc2
  constructor
  · refine ⟨_, _, hrx, hry, ?_⟩
    show JsValue.number (likesSum (postsBy xs ax)) = JsValue.number (likesSum (postsBy ys a2))
    rw [hsum]
  · intro hone
    have h1 : ax ∈ topLiked xs :=
      List.mem_filter.mpr ⟨(mem_authorsOf xs ax).mpr hoccx,
        decide_eq_true (fun c hc => hmaxx c ((mem_authorsOf xs c).mp hc))⟩
    have h2 : a2 ∈ topLiked xs :=
      List.mem_filter.mpr ⟨(mem_authorsOf xs a2).mpr hocc2,
        decide_eq_true (fun c hc => by
          rw [likesSum_postsBy_perm xs ys hperm c, likesSum_postsBy_perm xs ys hperm a2]
          obtain ⟨p, hp, hpa⟩ := (mem_authorsOf xs c).mp hc
          exact hmaxy c ⟨p, hperm.mem_iff.mp hp, hpa⟩)⟩
    have heq : ax = a2 := eq_of_filter_length_one _ _ hone ax a2 h1 h2
    rw [hrx, hry, hsum, heq]

/-! ## Lemmas on the argument limit -/

theorem uniq_length_le (l : List String) : (uniq l).length ≤ l.length :=
  (List.subperm_of_subset (nodup_uniq l) (fun x hx => (mem_uniq l x).mp hx)).length_le

theorem mostLikesLikes_length (blogs : List Post) :
    (mostLikesLikes blogs).length = (mostLikesAuthor blogs).length := by
  simp [mostLikesLikes]

theorem mostLikesLikes_length_le (blogs : List Post) :
    (mostLikesLikes blogs).length ≤ blogs.length := by
  rw [mostLikesLikes_length]
  have := uniq_length_le (blogs.map (fun blog => blog.author))
  simpa [mostLikesAuthor] using this

theorem favoriteBlogOn_of_le (limit : Nat) (blogs : List Post) (h : blogs.length ≤ limit) :
    favoriteBlogOn limit blogs = favoriteBlog blogs := by
  unfold favoriteBlogOn mathMaxSpread
  have hn : ¬ (blogs.map (fun blog => blog.likes)).length > limit := by
    rw [List.length_map]; omega
  rw [if_neg hn]
  split <;> rfl

theorem mostLikesOn_of_le (limit : Nat) (blogs : List Post) (h : blogs.length ≤ limit) :
    mostLikesOn limit blogs = mostLikes blogs := by
  unfold mostLikesOn mathMaxSpread
  have hn : ¬ (mostLikesLikes blogs).length > limit := by
    have := mostLikesLikes_length_le blogs; omega
  rw [if_neg hn]

theorem favoriteBlogOn_of_gt (limit : Nat) (blogs : List Post) (h : limit < blogs.length) :
    favoriteBlogOn limit blogs = .error .rangeError := by
  unfold favoriteBlogOn mathMaxSpread
  have hpos : blogs.length > 0 := by omega
  have hn : (blogs.map (fun blog => blog.likes)).length > limit := by
    rw [List.length_map]; exact h
  rw [if_pos hpos, if_pos hn]

/-! ## Claims -/

/-- C1 (as stated, refuted): on posts with likes 2^53 and 1, both integers,
`totalLikes` is 2^53 and not the sum 2^53 + 1: the second addition rounds. -/
theorem totalLikes_sum_counterexample :
    IntegerLikes [post "a" "x" 9007199254740992, post "b" "y" 1] ∧
    totalLikes [post "a" "x" 9007199254740992, post "b" "y" 1] = .number 9007199254740992 ∧
    totalLikes [post "a" "x" 9007199254740992, post "b" "y" 1]
      ≠ .number ([post "a" "x" 9007199254740992, post "b" "y" 1].map likesOf).sum := by
  decide

/-- C1 (amended): for a sequence of posts whose likes are integers with
absolute values summing to at most 2^53 - 1, `totalLikes` is the sum of the
likes of all posts; in particular it is `0` on the empty sequence. -/
theorem totalLikes_eq_sum :
    totalLikes [] = .number 0 ∧
    ∀ blogs : List Post, SafeLikes blogs →
      totalLikes blogs = .number (blogs.map likesOf).sum :=
  ⟨rfl, fun blogs h => totalLikes_number blogs h⟩

/-- C1 (amended), at likes 5, 7 and 12: the total is 24. -/
theorem totalLikes_eq_sum_witness :
    SafeLikes [post "a" "x" 5, post "b" "y" 7, post "c" "z" 12] ∧
    totalLikes [post "a" "x" 5, post "b" "y" 7, post "c" "z" 12] = .number 24 :=
  ⟨by decide, totalLikes_eq_sum.2 [post "a" "x" 5, post "b" "y" 7, post "c" "z" 12] (by decide)⟩

/-- C2: on a non-empty sequence with integer likes, `favoriteBlog` is the
projection to title, author and likes of one post of the sequence, and no
post of the sequence has more likes than that post. -/
theorem favoriteBlog_projects_max (blogs : List Post) (hne : blogs ≠ [])
    (h : IntegerLikes blogs) :
    ∃ p ∈ blogs,
      favoriteBlog blogs = .ok (some { title := p.title, author := p.author, likes := p.likes }) ∧
      ∀ q ∈ blogs, likesOf q ≤ likesOf p := by
  obtain ⟨front, b, back, hsplit, hfav, hmax, _⟩ := favoriteBlog_split blogs hne h
  exact ⟨b, by rw [hsplit]; simp, hfav, hmax⟩

/-- C2, at a three-post sequence. -/
theorem favoriteBlog_projects_max_witness :
    ∃ p ∈ [post "A" "X" 3, post "B" "Y" 12, post "C" "Z" 9],
      favoriteBlog [post "A" "X" 3, post "B" "Y" 12, post "C" "Z" 9]
        = .ok (some { title := p.title, author := p.author, likes := p.likes }) ∧
      ∀ q ∈ [post "A" "X" 3, post "B" "Y" 12, post "C" "Z" 9], likesOf q ≤ likesOf p :=
  favoriteBlog_projects_max [post "A" "X" 3, post "B" "Y" 12, post "C" "Z" 9]
    (by simp) (by decide)

/-- C3: on a non-empty sequence with integer likes, `favoriteBlog` is the
projection of the post at the smallest index among those with maximum likes:
the post at some index `i` has at least the likes of every post, and every
post at an index below `i` has strictly fewer likes. -/
theorem favoriteBlog_first_max (blogs : List Post) (hne : blogs ≠ [])
    (h : IntegerLikes blogs) :
    ∃ (i : Nat) (b : Post), blogs[i]? = some b ∧
      favoriteBlog blogs = .ok (some { title := b.title, author := b.author, likes := b.likes }) ∧
      (∀ q ∈ blogs, likesOf q ≤ likesOf b) ∧
      ∀ (j : Nat) (q : Post), j < i → blogs[j]? = some q → likesOf q < likesOf b := by
  obtain ⟨front, b, back, hsplit, hfav, hmax, hfront⟩ := favoriteBlog_split blogs hne h
  refine ⟨front.length, b, ?_, hfav, hmax, ?_⟩
  · rw [hsplit, List.getElem?_append_right (le_refl _)]; simp
  · intro j q hj hq
    apply hfront
    rw [hsplit, List.getElem?_append_left hj] at hq
    exact List.getElem?_mem hq

/-- C3, at posts A/X/3, B/Y/9, C/Z/9: the result is B/Y/9, at index 1. -/
theorem favoriteBlog_first_max_witness :
    favoriteBlog [post "A" "X" 3, post "B" "Y" 9, post "C" "Z" 9]
        = .ok (some { title := "B", author := "Y", likes := .number 9 }) ∧
    ∃ (i : Nat) (b : Post), [post "A" "X" 3, post "B" "Y" 9, post "C" "Z" 9][i]? = some b ∧
      favoriteBlog [post "A" "X" 3, post "B" "Y" 9, post "C" "Z" 9]
        = .ok (some { title := b.title, author := b.author, likes := b.likes }) ∧
      (∀ q ∈ [post "A" "X" 3, post "B" "Y" 9, post "C" "Z" 9], likesOf q ≤ likesOf b) ∧
      ∀ (j : Nat) (q : Post), j < i →
        [post "A" "X" 3, post "B" "Y" 9, post "C" "Z" 9][j]? = some q →
        likesOf q < likesOf b :=
  ⟨rfl, favoriteBlog_first_max [post "A" "X" 3, post "B" "Y" 9, post "C" "Z" 9]
    (by simp) (by decide)⟩

/-- C4: on a non-empty sequence, `mostBlogs` is an author of some post of the
sequence paired with the exact number of posts by that author, and no author
has more posts in the sequence. -/
theorem mostBlogs_max_count (blogs : List Post) (hne : blogs ≠ []) :
    ∃ (a : String) (n : Nat), mostBlogs blogs = .ok (some { author := a, blogs := n }) ∧
      (∃ p ∈ blogs, p.author = a) ∧
      n = (blogs.filter (fun p => decide (p.author = a))).length ∧
      ∀ b : String, (blogs.filter (fun p => decide (p.author = b))).length ≤ n := by
  obtain ⟨front, e, back, hsplit, _, hres, hfront, hback⟩ := mostBlogs_split blogs hne
  have he := (mostBlogs_entries blogs e).mp (by rw [hsplit]; simp)
  refine ⟨e.1, e.2, hres, he.1, he.2, ?_⟩
  intro b
  change blogCount blogs b ≤ e.2
  by_cases hb : ∃ p ∈ blogs, p.author = b
  · have hmem := (mostBlogs_entries blogs (b, blogCount blogs b)).mpr ⟨hb, rfl⟩
    rw [hsplit] at hmem
    rcases List.mem_append.mp hmem with h | h
    · exact le_of_lt (hfront _ h)
    · rcases List.mem_cons.mp h with h | h
      · rw [← h]
      · exact hback _ h
  · rw [blogCount_eq_zero blogs b hb]; exact Nat.zero_le _

/-- C4, at three posts by Robert C. Martin and two by Edsger W. Dijkstra. -/
theorem mostBlogs_max_count_witness :
    mostBlogs [post "a" "Robert C. Martin" 10, post "b" "Edsger W. Dijkstra" 5,
        post "c" "Robert C. Martin" 0, post "d" "Edsger W. Dijkstra" 12,
        post "e" "Robert C. Martin" 2]
      = .ok (some { author := "Robert C. Martin", blogs := 3 }) ∧
    ∃ (a : String) (n : Nat),
      mostBlogs [post "a" "Robert C. Martin" 10, post "b" "Edsger W. Dijkstra" 5,
        post "c" "Robert C. Martin" 0, post "d" "Edsger W. Dijkstra" 12,
        post "e" "Robert C. Martin" 2] = .ok (some { author := a, blogs := n }) ∧
      (∃ p ∈ [post "a" "Robert C. Martin" 10, post "b" "Edsger W. Dijkstra" 5,
        post "c" "Robert C. Martin" 0, post "d" "Edsger W. Dijkstra" 12,
        post "e" "Robert C. Martin" 2], p.author = a) ∧
      n = ([post "a" "Robert C. Martin" 10, post "b" "Edsger W. Dijkstra" 5,
        post "c" "Robert C. Martin" 0, post "d" "Edsger W. Dijkstra" 12,
        post "e" "Robert C. Martin" 2].filter (fun p => decide (p.author = a))).length ∧
      ∀ b : String, ([post "a" "Robert C. Martin" 10, post "b" "Edsger W. Dijkstra" 5,
        post "c" "Robert C. Martin" 0, post "d" "Edsger W. Dijkstra" 12,
        post "e" "Robert C. Martin" 2].filter (fun p => decide (p.author = b))).length ≤ n :=
  ⟨by decide, mostBlogs_max_count _ (by simp)⟩

/-- C5 (as stated, refuted): with one post by `A` followed by one post by `B`
the two authors tie, and `mostBlogs` returns `A`, the first of them in order of
first appearance, not the last. With one post by `2` followed by one post by
`1`, the grouped entries are enumerated with the array-index key `1` first, and
`mostBlogs` returns `1`. -/
theorem mostBlogs_last_tie_counterexample :
    (mostBlogs [post "s" "A" 0, post "t" "B" 0] = .ok (some { author := "A", blogs := 1 }) ∧
      ¬ ∃ (a : String) (n : Nat),
        mostBlogs [post "s" "A" 0, post "t" "B" 0] = .ok (some { author := a, blogs := n }) ∧
        ∀ b : String, (∃ p ∈ [post "s" "A" 0, post "t" "B" 0], p.author = b) →
          blogCount [post "s" "A" 0, post "t" "B" 0] b = n →
          firstIndex [post "s" "A" 0, post "t" "B" 0] b
            ≤ firstIndex [post "s" "A" 0, post "t" "B" 0] a) ∧
    mostBlogs [post "s" "2" 0, post "t" "1" 0] = .ok (some { author := "1", blogs := 1 }) := by
  refine ⟨⟨by decide, ?_⟩, by decide⟩
  rintro ⟨a, n, hres, hall⟩
  have h1 : mostBlogs [post "s" "A" 0, post "t" "B" 0]
      = .ok (some { author := "A", blogs := 1 }) := by decide
  rw [h1] at hres
  have ha : a = "A" := by
    injection hres with h; injection h with h; injection h with h1 h2; exact h1.symm
  have hn : n = 1 := by
    injection hres with h; injection h with h; injection h with h1 h2; exact h2.symm
  subst ha; subst hn
  have := hall "B" ⟨post "t" "B" 0, by simp, rfl⟩ (by decide)
  revert this
  decide

/-- C5 (amended): on a non-empty sequence, `mostBlogs` returns an author of
the sequence with that author's post count, which is the maximum post count,
and among the authors with the maximum post count it returns the FIRST in the
enumeration order of the grouped entries: every other author with the same
count comes after the returned one in that order (array-index names first, in
ascending numeric order, then the other names in order of first appearance).
In particular, when no author name is an array index, the returned author is
the tied author whose first post appears earliest in the sequence. -/
theorem mostBlogs_first_tie (blogs : List Post) (hne : blogs ≠ []) :
    ∃ (a : String) (n : Nat), mostBlogs blogs = .ok (some { author := a, blogs := n }) ∧
      (∃ p ∈ blogs, p.author = a) ∧
      n = blogCount blogs a ∧
      (∀ b : String, blogCount blogs b ≤ n) ∧
      (∀ b : String, b ≠ a → (∃ p ∈ blogs, p.author = b) → blogCount blogs b = n →
        keyBefore blogs a b) ∧
      ((∀ p ∈ blogs, arrayIndex? p.author = none) →
        ∀ b : String, b ≠ a → (∃ p ∈ blogs, p.author = b) → blogCount blogs b = n →
          firstIndex blogs a < firstIndex blogs b) := by
  obtain ⟨front, e, back, hsplit, _, hres, hfront, hback⟩ := mostBlogs_split blogs hne
  have he := (mostBlogs_entries blogs e).mp (by rw [hsplit]; simp)
  have hmaxc : ∀ b : String, blogCount blogs b ≤ e.2 := by
    intro b
    by_cases hb : ∃ p ∈ blogs, p.author = b
    · have hmem := (mostBlogs_entries blogs (b, blogCount blogs b)).mpr ⟨hb, rfl⟩
      rw [hsplit] at hmem
      rcases List.mem_append.mp hmem with h | h
      · exact le_of_lt (hfront _ h)
      · rcases List.mem_cons.mp h with h | h
        · rw [← h]
        · exact hback _ h
    · rw [blogCount_eq_zero blogs b hb]; exact Nat.zero_le _
  have hkey : ∀ b : String, b ≠ e.1 → (∃ p ∈ blogs, p.author = b) → blogCount blogs b = e.2 →
      keyBefore blogs e.1 b := by
    intro b hbne hb hcount
    have hmem := (mostBlogs_entries blogs (b, blogCount blogs b)).mpr ⟨hb, rfl⟩
    have hpw := pairwise_mostBlogs_entries blogs
    rw [hsplit] at hmem hpw
    have hback_mem : (b, blogCount blogs b) ∈ back := by
      rcases List.mem_append.mp hmem with h | h
      · have := hfront _ h
        simp only [hcount] at this
        exact absurd this (lt_irrefl _)
      · rcases List.mem_cons.mp h with h | h
        · exact absurd (congrArg Prod.fst h) hbne
        · exact h
    have hrel := (List.pairwise_cons.mp (List.pairwise_append.mp hpw).2.1).1 _ hback_mem
    exact keyBefore_of_entryBefore blogs e (b, blogCount blogs b) (fun h => hbne h.symm) hrel
  refine ⟨e.1, e.2, hres, he.1, he.2, hmaxc, hkey, ?_⟩
  intro hnone b hbne hb hcount
  have h := hkey b hbne hb hcount
  obtain ⟨p, hp, hpa⟩ := he.1
  obtain ⟨q, hq, hqb⟩ := hb
  have h1 : arrayIndex? e.1 = none := hpa ▸ hnone p hp
  have h2 : arrayIndex? b = none := hqb ▸ hnone q hq
  simpa only [keyBefore, h1, h2] using h

/-- C5 (amended), at posts by `A`, `B`, `B`, `C`, `C`: `B` and `C` tie with
two posts each and `B`, whose first post comes first, is returned. -/
theorem mostBlogs_first_tie_witness :
    mostBlogs [post "s" "A" 0, post "t" "B" 0, post "u" "B" 0, post "v" "C" 0, post "w" "C" 0]
      = .ok (some { author := "B", blogs := 2 }) ∧
    ∃ (a : String) (n : Nat),
      mostBlogs [post "s" "A" 0, post "t" "B" 0, post "u" "B" 0, post "v" "C" 0, post "w" "C" 0]
        = .ok (some { author := a, blogs := n }) ∧
      (∃ p ∈ [post "s" "A" 0, post "t" "B" 0, post "u" "B" 0, post "v" "C" 0, post "w" "C" 0],
        p.author = a) ∧
      n = blogCount
        [post "s" "A" 0, post "t" "B" 0, post "u" "B" 0, post "v" "C" 0, post "w" "C" 0] a ∧
      (∀ b : String, blogCount
        [post "s" "A" 0, post "t" "B" 0, post "u" "B" 0, post "v" "C" 0, post "w" "C" 0] b ≤ n) ∧
      (∀ b : String, b ≠ a →
        (∃ p ∈ [post "s" "A" 0, post "t" "B" 0, post "u" "B" 0, post "v" "C" 0, post "w" "C" 0],
          p.author = b) →
        blogCount
          [post "s" "A" 0, post "t" "B" 0, post "u" "B" 0, post "v" "C" 0, post "w" "C" 0] b = n →
        keyBefore
          [post "s" "A" 0, post "t" "B" 0, post "u" "B" 0, post "v" "C" 0, post "w" "C" 0] a b) ∧
      ((∀ p ∈ [post "s" "A" 0, post "t" "B" 0, post "u" "B" 0, post "v" "C" 0, post "w" "C" 0],
          arrayIndex? p.author = none) →
        ∀ b : String, b ≠ a →
          (∃ p ∈ [post "s" "A" 0, post "t" "B" 0, post "u" "B" 0, post "v" "C" 0, post "w" "C" 0],
            p.author = b) →
          blogCount
            [post "s" "A" 0, post "t" "B" 0, post "u" "B" 0, post "v" "C" 0, post "w" "C" 0] b
              = n →
          firstIndex
            [post "s" "A" 0, post "t" "B" 0, post "u" "B" 0, post "v" "C" 0, post "w" "C" 0] a
            < firstIndex
              [post "s" "A" 0, post "t" "B" 0, post "u" "B" 0, post "v" "C" 0, post "w" "C" 0]
              b) :=
  ⟨by decide, mostBlogs_first_tie _ (by simp)⟩

/-- C6 (as stated, refuted): on posts by `y` with 2^53 likes and by `x` with
2^53 and 1 likes, all integers, `mostLikes` returns `y` with 2^53, because the
total of `x` rounds to 2^53 as well; the likes of the posts by `x` sum to
2^53 + 1, more than the returned total. -/
theorem mostLikes_total_counterexample :
    IntegerLikes [post "s" "y" 9007199254740992, post "t" "x" 9007199254740992,
      post "u" "x" 1] ∧
    mostLikes [post "s" "y" 9007199254740992, post "t" "x" 9007199254740992, post "u" "x" 1]
      = .ok (some { author := some "y", likes := .number 9007199254740992 }) ∧
    ¬ ∃ (a : String) (s : Int),
      mostLikes [post "s" "y" 9007199254740992, post "t" "x" 9007199254740992, post "u" "x" 1]
        = .ok (some { author := some a, likes := .number s }) ∧
      ∀ b : String,
        (∃ p ∈ [post "s" "y" 9007199254740992, post "t" "x" 9007199254740992,
          post "u" "x" 1], p.author = b) →
        (([post "s" "y" 9007199254740992, post "t" "x" 9007199254740992,
          post "u" "x" 1].filter (fun p => decide (p.author = b))).map likesOf).sum ≤ s := by
  refine ⟨by decide, by decide, ?_⟩
  rintro ⟨a, s, hres, hall⟩
  have h1 : mostLikes [post "s" "y" 9007199254740992, post "t" "x" 9007199254740992,
      post "u" "x" 1]
      = .ok (some { author := some "y", likes := .number 9007199254740992 }) := by decide
  rw [h1] at hres
  have hs : s = 9007199254740992 := by
    injection hres with h; injection h with h; injection h with h1 h2
    injection h2 with h3; exact h3.symm
  subst hs
  have := hall "x" ⟨post "u" "x" 1, by simp, rfl⟩
  revert this
  decide

/-- C6 (amended): on a non-empty sequence whose likes are integers with
absolute values summing to at most 2^53 - 1, `mostLikes` is an author of some
post of the sequence paired with the exact sum of the likes of the posts by
that author, and no author of the sequence has a greater sum. -/
theorem mostLikes_max_total (blogs : List Post) (hne : blogs ≠ [])
    (h : SafeLikes blogs) :
    ∃ (a : String) (s : Int),
      mostLikes blogs = .ok (some { author := some a, likes := .number s }) ∧
      (∃ p ∈ blogs, p.author = a) ∧
      s = ((blogs.filter (fun p => decide (p.author = a))).map likesOf).sum ∧
      ∀ b : String, (∃ p ∈ blogs, p.author = b) →
        ((blogs.filter (fun p => decide (p.author = b))).map likesOf).sum ≤ s := by
  obtain ⟨a, hres, hocc, hmax⟩ := mostLikes_result_safe blogs hne h
  exact ⟨a, likesSum (postsBy blogs a), hres, hocc, rfl, hmax⟩

/-- C6 (amended), at posts totalling 17 likes for Edsger W. Dijkstra and 10
for Robert C. Martin. -/
theorem mostLikes_max_total_witness :
    mostLikes [post "a" "Robert C. Martin" 7, post "b" "Edsger W. Dijkstra" 5,
        post "c" "Robert C. Martin" 0, post "d" "Edsger W. Dijkstra" 12,
        post "e" "Robert C. Martin" 3]
      = .ok (some { author := some "Edsger W. Dijkstra", likes := .number 17 }) ∧
    ∃ (a : String) (s : Int),
      mostLikes [post "a" "Robert C. Martin" 7, post "b" "Edsger W. Dijkstra" 5,
        post "c" "Robert C. Martin" 0, post "d" "Edsger W. Dijkstra" 12,
        post "e" "Robert C. Martin" 3]
        = .ok (some { author := some a, likes := .number s }) ∧
      (∃ p ∈ [post "a" "Robert C. Martin" 7, post "b" "Edsger W. Dijkstra" 5,
        post "c" "Robert C. Martin" 0, post "d" "Edsger W. Dijkstra" 12,
        post "e" "Robert C. Martin" 3], p.author = a) ∧
      s = (([post "a" "Robert C. Martin" 7, post "b" "Edsger W. Dijkstra" 5,
        post "c" "Robert C. Martin" 0, post "d" "Edsger W. Dijkstra" 12,
        post "e" "Robert C. Martin" 3].filter
          (fun p => decide (p.author = a))).map likesOf).sum ∧
      ∀ b : String, (∃ p ∈ [post "a" "Robert C. Martin" 7, post "b" "Edsger W. Dijkstra" 5,
        post "c" "Robert C. Martin" 0, post "d" "Edsger W. Dijkstra" 12,
        post "e" "Robert C. Martin" 3], p.author = b) →
        (([post "a" "Robert C. Martin" 7, post "b" "Edsger W. Dijkstra" 5,
          post "c" "Robert C. Martin" 0, post "d" "Edsger W. Dijkstra" 12,
          post "e" "Robert C. Martin" 3].filter
            (fun p => decide (p.author = b))).map likesOf).sum ≤ s :=
  ⟨by decide, mostLikes_max_total _ (by simp) (by decide)⟩

/-- C7 (as stated, refuted): on posts by `A` with 2^53, 1 and 1 likes followed
by posts by `B` with 1, 1 and 2^53 likes, all integers, the likes of both
authors sum to 2^53 + 2 and `A` appears first, yet `mostLikes` returns `B`:
the total computed for `A` is 2^53, since each addition of 1 rounds back. -/
theorem mostLikes_tie_counterexample :
    IntegerLikes [post "s" "A" 9007199254740992, post "t" "A" 1, post "u" "A" 1,
      post "v" "B" 1, post "w" "B" 1, post "x" "B" 9007199254740992] ∧
    likesSum (postsBy [post "s" "A" 9007199254740992, post "t" "A" 1, post "u" "A" 1,
      post "v" "B" 1, post "w" "B" 1, post "x" "B" 9007199254740992] "A")
      = likesSum (postsBy [post "s" "A" 9007199254740992, post "t" "A" 1, post "u" "A" 1,
        post "v" "B" 1, post "w" "B" 1, post "x" "B" 9007199254740992] "B") ∧
    firstIndex [post "s" "A" 9007199254740992, post "t" "A" 1, post "u" "A" 1,
      post "v" "B" 1, post "w" "B" 1, post "x" "B" 9007199254740992] "A"
      < firstIndex [post "s" "A" 9007199254740992, post "t" "A" 1, post "u" "A" 1,
        post "v" "B" 1, post "w" "B" 1, post "x" "B" 9007199254740992] "B" ∧
    mostLikes [post "s" "A" 9007199254740992, post "t" "A" 1, post "u" "A" 1,
      post "v" "B" 1, post "w" "B" 1, post "x" "B" 9007199254740992]
      = .ok (some { author := some "B", likes := .number 9007199254740994 }) := by
  decide

/-- C7 (amended): on a non-empty sequence whose likes are integers with
absolute values summing to at most 2^53 - 1, `mostLikes` returns an author of
the sequence with the sum of the likes of that author's posts, which is the
maximum per-author sum, and among the authors that attain this maximum it
returns the one whose first post appears earliest: every other author with the
same sum first appears later in the sequence. -/
theorem mostLikes_first_tie (blogs : List Post) (hne : blogs ≠ [])
    (h : SafeLikes blogs) :
    ∃ (a : String) (s : Int),
      mostLikes blogs = .ok (some { author := some a, likes := .number s }) ∧
      (∃ p ∈ blogs, p.author = a) ∧
      s = likesSum (postsBy blogs a) ∧
      (∀ b : String, (∃ p ∈ blogs, p.author = b) → likesSum (postsBy blogs b) ≤ s) ∧
      ∀ b : String, b ≠ a → (∃ p ∈ blogs, p.author = b) →
        likesSum (postsBy blogs b) = s → firstIndex blogs a < firstIndex blogs b := by
  obtain ⟨front, a, back, hsplit, _, hres, hmax, hfront⟩ := mostLikes_split blogs hne h.1
  have hsafe := authorTotal_safe blogs h
  have ha : a ∈ mostLikesAuthor blogs := by rw [hsplit]; simp
  refine ⟨a, likesSum (postsBy blogs a), by rw [← hsafe a]; exact hres,
    (mem_authors blogs a).mp ha, rfl, ?_, ?_⟩
  · intro b hb
    rw [← hsafe a, ← hsafe b]
    exact hmax b ((mem_authors blogs b).mpr hb)
  · intro b hbne hb hsum
    have hmem : b ∈ mostLikesAuthor blogs := (mem_authors blogs b).mpr hb
    have hpw := pairwise_uniq (blogs.map (fun blog => blog.author))
    change (mostLikesAuthor blogs).Pairwise _ at hpw
    rw [hsplit] at hmem hpw
    have hback : b ∈ back := by
      rcases List.mem_append.mp hmem with h1 | h1
      · have := hfront b h1
        rw [hsafe b, hsafe a, hsum] at this
        exact absurd this (lt_irrefl _)
      · rcases List.mem_cons.mp h1 with h1 | h1
        · exact absurd h1 hbne
        · exact h1
    have hrel := (List.pairwise_cons.mp (List.pairwise_append.mp hpw).2.1).1 b hback
    rw [findIdx_author, findIdx_author] at hrel
    exact hrel

/-- C7 (amended), at posts by `A` (1 like), `B` (2 and 3 likes) and `C`
(5 likes): `B` and `C` total 5 each and `B`, whose first post comes first, is
returned. -/
theorem mostLikes_first_tie_witness :
    mostLikes [post "s" "A" 1, post "t" "B" 2, post "u" "C" 5, post "v" "B" 3]
      = .ok (some { author := some "B", likes := .number 5 }) ∧
    ∃ (a : String) (s : Int),
      mostLikes [post "s" "A" 1, post "t" "B" 2, post "u" "C" 5, post "v" "B" 3]
        = .ok (some { author := some a, likes := .number s }) ∧
      (∃ p ∈ [post "s" "A" 1, post "t" "B" 2, post "u" "C" 5, post "v" "B" 3],
        p.author = a) ∧
      s = likesSum (postsBy [post "s" "A" 1, post "t" "B" 2, post "u" "C" 5, post "v" "B" 3] a) ∧
      (∀ b : String,
        (∃ p ∈ [post "s" "A" 1, post "t" "B" 2, post "u" "C" 5, post "v" "B" 3],
          p.author = b) →
        likesSum (postsBy [post "s" "A" 1, post "t" "B" 2, post "u" "C" 5, post "v" "B" 3] b)
          ≤ s) ∧
      ∀ b : String, b ≠ a →
        (∃ p ∈ [post "s" "A" 1, post "t" "B" 2, post "u" "C" 5, post "v" "B" 3],
          p.author = b) →
        likesSum (postsBy [post "s" "A" 1, post "t" "B" 2, post "u" "C" 5, post "v" "B" 3] b)
          = s →
        firstIndex [post "s" "A" 1, post "t" "B" 2, post "u" "C" 5, post "v" "B" 3] a
          < firstIndex [post "s" "A" 1, post "t" "B" 2, post "u" "C" 5, post "v" "B" 3] b :=
  ⟨by decide, mostLikes_first_tie _ (by simp) (by decide)⟩

/-- C8: each of `favoriteBlog`, `mostBlogs` and `mostLikes` returns `null`
exactly when the sequence is empty; in particular on the empty sequence each
returns `null` without raising an error. -/
theorem null_iff_empty (blogs : List Post) :
    (favoriteBlog blogs = .ok none ↔ blogs = []) ∧
    (mostBlogs blogs = .ok none ↔ blogs = []) ∧
    (mostLikes blogs = .ok none ↔ blogs = []) := by
  cases blogs with
  | nil => exact ⟨⟨fun _ => rfl, fun _ => rfl⟩, ⟨fun _ => rfl, fun _ => rfl⟩,
      ⟨fun _ => rfl, fun _ => rfl⟩⟩
  | cons p ps =>
    have hlen : (p :: ps).length > 0 := by simp
    refine ⟨⟨?_, fun h => by simp at h⟩, ⟨?_, fun h => by simp at h⟩,
      ⟨?_, fun h => by simp at h⟩⟩
    · intro hf
      simp only [favoriteBlog, hlen, if_true] at hf
      split at hf <;> simp at hf
    · intro hf
      simp only [mostBlogs, hlen, if_true] at hf
      split at hf <;> simp at hf
    · intro hf
      simp only [mostLikes, hlen, if_true] at hf
      simp at hf

/-- C9 (as stated, refuted): 200000 posts with 1 like each form a non-empty
well-formed sequence, and on an engine that accepts at most 100000 arguments
in a spread call `favoriteBlog` raises a `RangeError` on it, instead of
returning a value. -/
theorem operations_total_counterexample :
    WellFormed (List.replicate 200000 (post "t" "A" 1)) ∧
    List.replicate 200000 (post "t" "A" 1) ≠ [] ∧
    favoriteBlogOn 100000 (List.replicate 200000 (post "t" "A" 1)) = .error .rangeError ∧
    ¬ ∃ r, favoriteBlogOn 100000 (List.replicate 200000 (post "t" "A" 1)) = .ok r := by
  have herr : favoriteBlogOn 100000 (List.replicate 200000 (post "t" "A" 1))
      = .error .rangeError :=
    favoriteBlogOn_of_gt _ _ (by rw [List.length_replicate]; decide)
  refine ⟨?_, ?_, herr, ?_⟩
  · intro p hp
    rw [List.eq_of_mem_replicate hp]
    decide
  · intro h0
    have := congrArg List.length h0
    rw [List.length_replicate] at this
    exact absurd this (by decide)
  · rintro ⟨r, hr⟩
    rw [herr] at hr
    exact absurd hr (by simp)

/-- C9 (amended): on a non-empty well-formed sequence (every post has a
non-negative integer `likes`) that has no more posts than the engine accepts
arguments in a spread call, every operation returns a value: the search of
`favoriteBlog` finds a record, the index computed by `mostLikes` is a valid
index into both the author list and the totals list, the maximal grouped entry
of `mostBlogs` exists, and no operation raises an error. -/
theorem operations_total (limit : Nat) (blogs : List Post) (hne : blogs ≠ [])
    (h : WellFormed blogs) (hlen : blogs.length ≤ limit) :
    (∃ b, favoriteBlogFind blogs = some b ∧
      favoriteBlogOn limit blogs
        = .ok (some { title := b.title, author := b.author, likes := b.likes })) ∧
    (0 ≤ mostLikesIndex blogs ∧
      mostLikesIndex blogs < ((mostLikesAuthor blogs).length : Int) ∧
      mostLikesIndex blogs < ((mostLikesLikes blogs).length : Int) ∧
      ∃ (a : String) (s : Int),
        mostLikesOn limit blogs = .ok (some { author := some a, likes := .number s })) ∧
    (∃ e, mostBlogsEntry blogs = some e ∧
      mostBlogs blogs = .ok (some { author := e.1, blogs := e.2 })) ∧
    ∃ n : Int, totalLikes blogs = .number n := by
  have hint : IntegerLikes blogs := fun p hp => (h p hp).1
  have hpos : blogs.length > 0 := List.length_pos.mpr hne
  refine ⟨?_, ?_, ?_, ⟨_, totalLikes_double blogs hint⟩⟩
  · obtain ⟨front, b, back, _, hfav, _, _⟩ := favoriteBlog_split blogs hne hint
    rw [favoriteBlogOn_of_le limit blogs hlen]
    cases hfind : favoriteBlogFind blogs with
    | none => simp [favoriteBlog, hfind, hpos] at hfav
    | some b2 => exact ⟨b2, rfl, by simp [favoriteBlog, hfind, hpos]⟩
  · obtain ⟨front, a, back, hsplit, hidx, hres, _, _⟩ := mostLikes_split blogs hne hint
    rw [mostLikesOn_of_le limit blogs hlen]
    refine ⟨?_, ?_, ?_, a, _, hres⟩
    · rw [hidx]; omega
    · rw [hidx, hsplit]; simp
    · rw [mostLikesLikes_length, hidx, hsplit]; simp
  · obtain ⟨front, e, back, _, hentry, hres, _, _⟩ := mostBlogs_split blogs hne
    exact ⟨e, hentry, hres⟩

/-- C9 (amended), at a two-post sequence on an engine that accepts 100000
arguments. -/
theorem operations_total_witness :
    WellFormed [post "s" "A" 3, post "t" "B" 6] ∧
    ((∃ b, favoriteBlogFind [post "s" "A" 3, post "t" "B" 6] = some b ∧
      favoriteBlogOn 100000 [post "s" "A" 3, post "t" "B" 6]
        = .ok (some { title := b.title, author := b.author, likes := b.likes })) ∧
    (0 ≤ mostLikesIndex [post "s" "A" 3, post "t" "B" 6] ∧
      mostLikesIndex [post "s" "A" 3, post "t" "B" 6]
        < ((mostLikesAuthor [post "s" "A" 3, post "t" "B" 6]).length : Int) ∧
      mostLikesIndex [post "s" "A" 3, post "t" "B" 6]
        < ((mostLikesLikes [post "s" "A" 3, post "t" "B" 6]).length : Int) ∧
      ∃ (a : String) (s : Int),
        mostLikesOn 100000 [post "s" "A" 3, post "t" "B" 6]
          = .ok (some { author := some a, likes := .number s })) ∧
    (∃ e, mostBlogsEntry [post "s" "A" 3, post "t" "B" 6] = some e ∧
      mostBlogs [post "s" "A" 3, post "t" "B" 6]
        = .ok (some { author := e.1, blogs := e.2 })) ∧
    ∃ n : Int, totalLikes [post "s" "A" 3, post "t" "B" 6] = .number n) :=
  ⟨by decide, operations_total 100000 _ (by simp) (by decide) (by decide)⟩

/-- C10 (as stated, refuted): the sequences with likes 2^53, 1, 1 and
1, 1, 2^53 are permutations of each other with integer likes, and `totalLikes`
is 2^53 on the first (each addition of 1 rounds back) and 2^53 + 2 on the
second. -/
theorem totalLikes_perm_counterexample :
    List.Perm [post "s" "A" 9007199254740992, post "t" "B" 1, post "u" "C" 1]
      [post "t" "B" 1, post "u" "C" 1, post "s" "A" 9007199254740992] ∧
    IntegerLikes [post "s" "A" 9007199254740992, post "t" "B" 1, post "u" "C" 1] ∧
    totalLikes [post "s" "A" 9007199254740992, post "t" "B" 1, post "u" "C" 1]
      = .number 9007199254740992 ∧
    totalLikes [post "t" "B" 1, post "u" "C" 1, post "s" "A" 9007199254740992]
      = .number 9007199254740994 ∧
    totalLikes [post "s" "A" 9007199254740992, post "t" "B" 1, post "u" "C" 1]
      ≠ totalLikes [post "t" "B" 1, post "u" "C" 1, post "s" "A" 9007199254740992] :=
  ⟨@List.perm_append_comm _ [post "s" "A" 9007199254740992] [post "t" "B" 1, post "u" "C" 1],
    by decide, by decide, by decide, by decide⟩

/-- C10 (amended): `totalLikes` returns the same value on two sequences that
are permutations of each other and whose likes are integers with absolute
values summing to at most 2^53 - 1. -/
theorem totalLikes_perm (xs ys : List Post) (hperm : xs.Perm ys) (h : SafeLikes xs) :
    totalLikes xs = totalLikes ys := by
  rw [totalLikes_number xs h, totalLikes_number ys (safeLikes_perm xs ys hperm h)]
  unfold likesSum
  rw [(hperm.map likesOf).sum_eq]

/-- C10 (amended), at a two-post sequence and its reversal. -/
theorem totalLikes_perm_witness :
    totalLikes [post "s" "A" 3, post "t" "B" 6] = totalLikes [post "t" "B" 6, post "s" "A" 3] :=
  totalLikes_perm _ _ (List.Perm.swap _ _ _) (by decide)

/-- C11 (as stated, refuted): the sequences of posts by `A` with likes
2^53, 1, 1 and with likes 1, 1, 2^53 are permutations of each other with
integer likes and a single author, and the likes of `mostLikes` are 2^53 on
the first and 2^53 + 2 on the second. -/
theorem results_perm_counterexample :
    List.Perm [post "s" "A" 9007199254740992, post "t" "A" 1, post "u" "A" 1]
      [post "t" "A" 1, post "u" "A" 1, post "s" "A" 9007199254740992] ∧
    IntegerLikes [post "s" "A" 9007199254740992, post "t" "A" 1, post "u" "A" 1] ∧
    (topLiked [post "s" "A" 9007199254740992, post "t" "A" 1, post "u" "A" 1]).length = 1 ∧
    mostLikes [post "s" "A" 9007199254740992, post "t" "A" 1, post "u" "A" 1]
      = .ok (some { author := some "A", likes := .number 9007199254740992 }) ∧
    mostLikes [post "t" "A" 1, post "u" "A" 1, post "s" "A" 9007199254740992]
      = .ok (some { author := some "A", likes := .number 9007199254740994 }) ∧
    mostLikes [post "s" "A" 9007199254740992, post "t" "A" 1, post "u" "A" 1]
      ≠ mostLikes [post "t" "A" 1, post "u" "A" 1, post "s" "A" 9007199254740992] :=
  ⟨@List.perm_append_comm _ [post "s" "A" 9007199254740992] [post "t" "A" 1, post "u" "A" 1],
    by decide, by decide, by decide, by decide, by decide⟩

/-- C11 (amended): on two non-empty sequences with integer likes that are
permutations of each other, the likes of `favoriteBlog` and the count of
`mostBlogs` agree, and when exactly one post attains the maximum likes, or
exactly one author the maximum post count, the whole result of `favoriteBlog`
or `mostBlogs` respectively agrees. When in addition the absolute values of
the likes sum to at most 2^53 - 1, the likes of `mostLikes` agree, and its
whole result agrees when exactly one author attains the maximum total. -/
theorem results_perm (xs ys : List Post) (hperm : xs.Perm ys) (hne : xs ≠ [])
    (h : IntegerLikes xs) :
    (∃ fx fy, favoriteBlog xs = .ok (some fx) ∧ favoriteBlog ys = .ok (some fy) ∧
      fx.likes = fy.likes) ∧
    (∃ rx ry, mostBlogs xs = .ok (some rx) ∧ mostBlogs ys = .ok (some ry) ∧
      rx.blogs = ry.blogs) ∧
    ((topPosts xs).length = 1 → favoriteBlog xs = favoriteBlog ys) ∧
    ((topBloggers xs).length = 1 → mostBlogs xs = mostBlogs ys) ∧
    (SafeLikes xs →
      (∃ rx ry, mostLikes xs = .ok (some rx) ∧ mostLikes ys = .ok (some ry) ∧
        rx.likes = ry.likes) ∧
      ((topLiked xs).length = 1 → mostLikes xs = mostLikes ys)) :=
  ⟨(favoriteBlog_perm xs ys hperm hne h).1, (mostBlogs_perm xs ys hperm hne).1,
    (favoriteBlog_perm xs ys hperm hne h).2, (mostBlogs_perm xs ys hperm hne).2,
    fun hs => mostLikes_perm xs ys hperm hne hs⟩

/-- C11 (amended), at posts A/3, B/6, A/4 and the same posts with the first
two swapped: each maximum is attained once and the three results agree. -/
theorem results_perm_witness :
    favoriteBlog [post "s" "A" 3, post "t" "B" 6, post "u" "A" 4]
      = favoriteBlog [post "t" "B" 6, post "s" "A" 3, post "u" "A" 4] ∧
    mostBlogs [post "s" "A" 3, post "t" "B" 6, post "u" "A" 4]
      = mostBlogs [post "t" "B" 6, post "s" "A" 3, post "u" "A" 4] ∧
    mostLikes [post "s" "A" 3, post "t" "B" 6, post "u" "A" 4]
      = mostLikes [post "t" "B" 6, post "s" "A" 3, post "u" "A" 4] :=
  have hall := results_perm [post "s" "A" 3, post "t" "B" 6, post "u" "A" 4]
    [post "t" "B" 6, post "s" "A" 3, post "u" "A" 4] (List.Perm.swap _ _ _) (by simp)
    (by decide)
  ⟨hall.2.2.1 (by decide), hall.2.2.2.1 (by decide), (hall.2.2.2.2 (by decide)).2 (by decide)⟩

/-- C12 (as stated, refuted): on the one-post sequence whose post has no
`likes` field, `favoriteBlog` raises a `TypeError` instead of returning a
value. -/
theorem favoriteBlog_missing_likes_counterexample :
    favoriteBlog [postNoLikes "t" "A"] = .error .typeError ∧
    ¬ ∃ r, favoriteBlog [postNoLikes "t" "A"] = .ok r := by
  refine ⟨by decide, ?_⟩
  rintro ⟨r, hr⟩
  have h : favoriteBlog [postNoLikes "t" "A"] = .error .typeError := by decide
  rw [h] at hr
  exact absurd hr (by simp)

/-- C12 (amended): on a sequence in which some post has no `likes` field
(such a sequence is non-empty), `totalLikes`, `mostBlogs` and `mostLikes`
return a value without raising an error (`totalLikes` returns `NaN`,
`mostLikes` a record whose author and likes are both `undefined`), whereas
`favoriteBlog` raises a `TypeError`. -/
theorem missing_likes_behaviour (blogs : List Post)
    (h : ∃ p ∈ blogs, p.likes = .undefined) :
    totalLikes blogs = .nan ∧
    (∃ r, mostBlogs blogs = .ok (some r)) ∧
    mostLikes blogs = .ok (some { author := none, likes := .undefined }) ∧
    favoriteBlog blogs = .error .typeError := by
  have hne : blogs ≠ [] := by
    obtain ⟨p, hp, _⟩ := h
    exact List.ne_nil_of_mem hp
  obtain ⟨_, e, _, _, _, hres, _, _⟩ := mostBlogs_split blogs hne
  exact ⟨totalLikes_undefined blogs h, ⟨_, hres⟩, mostLikes_undefined blogs h,
    favoriteBlog_undefined blogs h⟩

/-- C12 (amended), at a post with 3 likes followed by a post without `likes`. -/
theorem missing_likes_behaviour_witness :
    (∃ p ∈ [post "s" "A" 3, postNoLikes "t" "B"], p.likes = .undefined) ∧
    totalLikes [post "s" "A" 3, postNoLikes "t" "B"] = .nan ∧
    (∃ r, mostBlogs [post "s" "A" 3, postNoLikes "t" "B"] = .ok (some r)) ∧
    mostLikes [post "s" "A" 3, postNoLikes "t" "B"]
      = .ok (some { author := none, likes := .undefined }) ∧
    favoriteBlog [post "s" "A" 3, postNoLikes "t" "B"] = .error .typeError :=
  ⟨⟨postNoLikes "t" "B", by simp, rfl⟩,
    missing_likes_behaviour [post "s" "A" 3, postNoLikes "t" "B"]
      ⟨postNoLikes "t" "B", by simp, rfl⟩⟩

/-- C13 (as stated, refuted): on a post with 5 likes followed by a post
without `likes`, `totalLikes` is `NaN`, not the sum 5 of the likes present. -/
theorem totalLikes_missing_likes_counterexample :
    totalLikes [post "s" "A" 5, postNoLikes "t" "B"] = .nan ∧
    totalLikes [post "s" "A" 5, postNoLikes "t" "B"] ≠ .number 5 := by
  constructor <;> decide

/-- C13 (amended): on a sequence in which some post has no `likes` field,
`totalLikes` returns `NaN`: a missing `likes` is not treated as 0. -/
theorem totalLikes_missing_likes (blogs : List Post)
    (h : ∃ p ∈ blogs, p.likes = .undefined) : totalLikes blogs = .nan :=
  totalLikes_undefined blogs h

/-- C13 (amended), at a post without `likes` between two posts with likes. -/
theorem totalLikes_missing_likes_witness :
    totalLikes [post "s" "A" 5, postNoLikes "t" "B", post "u" "C" 7] = .nan :=
  totalLikes_missing_likes [post "s" "A" 5, postNoLikes "t" "B", post "u" "C" 7]
    ⟨postNoLikes "t" "B", by simp, rfl⟩

/-- C14 (as stated, refuted): on the empty sequence `dummy` returns 1, not
nothing. -/
theorem dummy_empty_counterexample :
    dummy (.array []) = .number 1 ∧ dummy (.array []) ≠ .undefined := by
  constructor <;> decide

/-- C14 (amended): `dummy` returns the constant 1 for every sequence of posts,
the empty sequence included, whatever the posts hold, and returns nothing
(`undefined`) when its argument is absent. -/
theorem dummy_constant :
    (∀ blogs : List Post, dummy (.array blogs) = .number 1) ∧
    dummy .undefined = .undefined :=
  ⟨fun _ => rfl, rfl⟩

/-- C15: on a non-empty sequence whose likes are all non-negative integers,
the likes of `favoriteBlog` are at most the likes of `mostLikes`, which are at
most `totalLikes`. Non-negativity is needed: with posts of 5 and -3 likes by
one author, `favoriteBlog` has 5 likes and `mostLikes` only 2. -/
theorem likes_chain :
    (∀ blogs : List Post, blogs ≠ [] → WellFormed blogs →
      ∃ (fav : FavoriteResult) (top : LikesResult) (f s t : Int),
        favoriteBlog blogs = .ok (some fav) ∧ fav.likes = .number f ∧
        mostLikes blogs = .ok (some top) ∧ top.likes = .number s ∧
        totalLikes blogs = .number t ∧ f ≤ s ∧ s ≤ t) ∧
    (favoriteBlog [post "s" "A" 5, post "t" "A" (-3)]
        = .ok (some { title := "s", author := "A", likes := .number 5 }) ∧
      mostLikes [post "s" "A" 5, post "t" "A" (-3)]
        = .ok (some { author := some "A", likes := .number 2 })) := by
  refine ⟨?_, by decide, by decide⟩
  intro blogs hne h
  have hint : IntegerLikes blogs := fun p hp => (h p hp).1
  obtain ⟨b, hb, hfav, _⟩ := favoriteBlog_result blogs hne hint
  obtain ⟨a, hres, _, hmax⟩ := mostLikes_result blogs hne hint
  refine ⟨_, _, likesOf b, authorTotal blogs a, doubleSumFrom 0 (blogs.map likesOf), hfav,
    hint b hb, hres, rfl, totalLikes_double blogs hint, ?_, authorTotal_le_total blogs h a⟩
  exact le_trans (likesOf_le_authorTotal blogs h b hb) (hmax b.author ⟨b, hb, rfl⟩)

/-- C15, at posts with 3, 6 and 4 likes by two authors: 6 ≤ 7 ≤ 13. -/
theorem likes_chain_witness :
    ∃ (fav : FavoriteResult) (top : LikesResult) (f s t : Int),
      favoriteBlog [post "s" "A" 3, post "t" "B" 6, post "u" "A" 4] = .ok (some fav) ∧
      fav.likes = .number f ∧
      mostLikes [post "s" "A" 3, post "t" "B" 6, post "u" "A" 4] = .ok (some top) ∧
      top.likes = .number s ∧
      totalLikes [post "s" "A" 3, post "t" "B" 6, post "u" "A" 4] = .number t ∧
      f ≤ s ∧ s ≤ t :=
  likes_chain.1 [post "s" "A" 3, post "t" "B" 6, post "u" "A" 4] (by simp) (by decide)

/-- C16: on a non-empty sequence, the count returned by `mostBlogs` is at
least 1 and at most the length of the sequence, and it equals the length
exactly when all posts of the sequence have the same author. -/
theorem mostBlogs_count_bounds (blogs : List Post) (hne : blogs ≠ []) :
    ∃ (a : String) (n : Nat), mostBlogs blogs = .ok (some { author := a, blogs := n }) ∧
      1 ≤ n ∧ n ≤ blogs.length ∧
      (n = blogs.length ↔ ∀ p ∈ blogs, ∀ q ∈ blogs, p.author = q.author) := by
  obtain ⟨a, hres, hocc, _⟩ := mostBlogs_result blogs hne
  refine ⟨a, blogCount blogs a, hres, blogCount_pos blogs a hocc,
    blogCount_le_length blogs a, ?_⟩
  rw [blogCount_eq_length]
  constructor
  · intro hall p hp q hq
    rw [hall p hp, hall q hq]
  · intro hsame p hp
    obtain ⟨q, hq, hqa⟩ := hocc
    rw [← hqa]
    exact hsame p hp q hq

/-- C16, at two posts by `A` and one by `B`: the count is 2 of 3. -/
theorem mostBlogs_count_bounds_witness :
    mostBlogs [post "s" "A" 3, post "t" "B" 6, post "u" "A" 4]
      = .ok (some { author := "A", blogs := 2 }) ∧
    ∃ (a : String) (n : Nat),
      mostBlogs [post "s" "A" 3, post "t" "B" 6, post "u" "A" 4]
        = .ok (some { author := a, blogs := n }) ∧
      1 ≤ n ∧ n ≤ [post "s" "A" 3, post "t" "B" 6, post "u" "A" 4].length ∧
      (n = [post "s" "A" 3, post "t" "B" 6, post "u" "A" 4].length ↔
        ∀ p ∈ [post "s" "A" 3, post "t" "B" 6, post "u" "A" 4],
          ∀ q ∈ [post "s" "A" 3, post "t" "B" 6, post "u" "A" 4], p.author = q.author) :=
  ⟨by decide, mostBlogs_count_bounds _ (by simp)⟩

/-- C17: on a non-empty sequence with integer likes in which every post has
the author `a`, `mostLikes` is `a` with `totalLikes` of the sequence and
`mostBlogs` is `a` with the length of the sequence. -/
theorem single_author (blogs : List Post) (a : String) (hne : blogs ≠ [])
    (h : IntegerLikes blogs) (hall : ∀ p ∈ blogs, p.author = a) :
    mostLikes blogs = .ok (some { author := some a, likes := totalLikes blogs }) ∧
    mostBlogs blogs = .ok (some { author := a, blogs := blogs.length }) := by
  obtain ⟨a1, hres1, ⟨p1, hp1, hpa1⟩, _⟩ := mostLikes_result blogs hne h
  obtain ⟨a2, hres2, ⟨p2, hp2, hpa2⟩, _⟩ := mostBlogs_result blogs hne
  have h1 : a1 = a := by rw [← hpa1]; exact hall p1 hp1
  have h2 : a2 = a := by rw [← hpa2]; exact hall p2 hp2
  rw [h1] at hres1
  rw [h2] at hres2
  constructor
  · rw [hres1, totalLikes_double blogs h]
    unfold authorTotal
    rw [postsBy_eq_self blogs a hall]
  · rw [hres2, (blogCount_eq_length blogs a).mpr hall]

/-- C17, at three posts by one author with 3, 6 and 4 likes. -/
theorem single_author_witness :
    mostLikes [post "s" "A" 3, post "t" "A" 6, post "u" "A" 4]
      = .ok (some { author := some "A", likes := .number 13 }) ∧
    mostBlogs [post "s" "A" 3, post "t" "A" 6, post "u" "A" 4]
      = .ok (some { author := "A", blogs := 3 }) :=
  single_author [post "s" "A" 3, post "t" "A" 6, post "u" "A" 4] "A" (by simp) (by decide)
    (by decide)

end ListHelper

